import Mathlib

/-!
# go-conventional-commits: a verification development

Shallow embedding of `main.go` (the conventional-commit parser) and proofs of
properties of `ParseHeader`, `ParseFooter` and `ParseLines`.

Modelling conventions.

* A Go `string` is a `Str`, a list of characters; the empty list is `""`.
* A Go `error` is the text handed to `errors.New`; a function of type
  `(T, error)` is modelled by `Except String T` when it cannot panic and by
  `Result T` when an index or slice expression in it can be out of range.
* The two regular expressions of `main.go` are written as values of the syntax
  tree `Re`, and Go's `regexp` package is modelled by a backtracking matcher
  that lists the possible matches in priority order (leftmost-first
  semantics, as documented for package `regexp`).
* `strings.Join`, `strings.TrimRight`, `strings.Split` and `strings.TrimSuffix`
  are modelled by list functions, the last two only for the arguments the
  program passes (`"\n"` and `"\r"`).
-/

namespace ConventionalCommits

/-- A Go string, as the list of its characters. -/
abbrev Str := List Char

/-! ## Package `strings` -/

/-- The call `strings.Join(elems, sep)`. -/
def stringsJoin (elems : List Str) (sep : Str) : Str :=
  List.intercalate sep elems

/-- The call `strings.TrimRight(s, cutset)`: all trailing characters contained in
`cutset` are removed. -/
def stringsTrimRight (s : Str) (cutset : Str) : Str :=
  s.rdropWhile (fun c => cutset.contains c)

/-! ## Package `regexp` -/

/-- Syntax of the regular expressions used by `main.go`.  Repetition is only
ever applied to a character class, which is the only way the two patterns of
the program use it. -/
inductive Re where
  /-- The empty expression. -/
  | empty : Re
  /-- The anchor `^` (no `m` flag: beginning of text). -/
  | bol : Re
  /-- The anchor `$` (no `m` flag: end of text). -/
  | eol : Re
  /-- A character class, given by its membership test. -/
  | cls : (Char → Bool) → Re
  /-- A literal string. -/
  | lit : Str → Re
  /-- Greedy repetition `c*` of a character class. -/
  | star : (Char → Bool) → Re
  /-- Concatenation. -/
  | seq : Re → Re → Re
  /-- Alternation `a|b`, the left branch preferred. -/
  | alt : Re → Re → Re
  /-- Capturing group number `i`. -/
  | cap : Nat → Re → Re

/-- Greedy `c+`, which is `cc*`. -/
def Re.plus (p : Char → Bool) : Re := Re.seq (Re.cls p) (Re.star p)

/-- Greedy `a?`, which prefers `a` to the empty match. -/
def Re.opt (a : Re) : Re := Re.alt a Re.empty

/-- The class `\w` of package `regexp`: `[0-9A-Za-z_]`. -/
def isWord (c : Char) : Bool :=
  ('0' ≤ c && c ≤ '9') || ('A' ≤ c && c ≤ 'Z') || ('a' ≤ c && c ≤ 'z') || c == '_'

/-- The class `.` without the `s` flag: any character except a newline. -/
def isDot (c : Char) : Bool := c != '\n'

/-- A position of the matcher in the input: the text before it, the text after
it, and the groups captured so far (most recent binding first). -/
structure MState where
  pre : Str
  rest : Str
  caps : List (Nat × Str)

/-- All the ways the greedy `c*` can match at a position, longest first. -/
def runStar (p : Char → Bool) (caps : List (Nat × Str)) : Str → Str → List MState
  | pre, [] => [⟨pre, [], caps⟩]
  | pre, c :: r =>
    if p c then runStar p caps (pre ++ [c]) r ++ [⟨pre, c :: r, caps⟩]
    else [⟨pre, c :: r, caps⟩]

/-- All the ways an expression can match at a position, in the order in which a
backtracking matcher tries them. -/
def Re.run : Re → MState → List MState
  | Re.empty, st => [st]
  | Re.bol, st => if st.pre = [] then [st] else []
  | Re.eol, st => if st.rest = [] then [st] else []
  | Re.cls p, st =>
    match st.rest with
    | [] => []
    | c :: r => if p c then [⟨st.pre ++ [c], r, st.caps⟩] else []
  | Re.lit s, st =>
    if s.isPrefixOf st.rest then [⟨st.pre ++ s, st.rest.drop s.length, st.caps⟩] else []
  | Re.star p, st => runStar p st.caps st.pre st.rest
  | Re.seq a b, st => (a.run st).flatMap (fun m => b.run m)
  | Re.alt a b, st => a.run st ++ b.run st
  | Re.cap i a, st =>
    (a.run st).map (fun m => ⟨m.pre, m.rest, (i, m.pre.drop st.pre.length) :: m.caps⟩)

/-- A compiled regular expression: its syntax tree and the names of its groups
(`SubexpNames`: entry 0 is the whole match, unnamed groups have name `""`). -/
structure Regexp where
  prog : Re
  subexpNames : List String

/-- The first match of `re` that starts at the earliest possible position
at or after the current one: the position where the match starts and the
state it ends in. -/
def search (re : Re) : Str → Str → Option (Str × MState)
  | pre, [] => ((re.run ⟨pre, [], []⟩).head?).map (fun m => (pre, m))
  | pre, c :: r =>
    match (re.run ⟨pre, c :: r, []⟩).head? with
    | some m => some (pre, m)
    | none => search re (pre ++ [c]) r

/-- The method `FindStringSubmatch`: `none` is Go's `nil`; otherwise entry 0 is
the text of the leftmost match and entry `i` the text of group `i`, `""` for a
group that took no part in the match. -/
def Regexp.FindStringSubmatch (r : Regexp) (s : Str) : Option (List Str) :=
  match search r.prog [] s with
  | none => none
  | some (start, m) =>
    some ((List.range r.subexpNames.length).map (fun i =>
      if i = 0 then m.pre.drop start.length else (m.caps.lookup i).getD []))

/-! ## `main.go` -/

structure Header where
  Type' : Str
  Scope : Str
  Breaking : Bool
  Message : Str
  deriving DecidableEq, Repr

structure Footer where
  Token : Str
  Value : Str
  Separator : Str
  deriving DecidableEq, Repr

structure CommitMessage where
  Header : Header
  Body : Str
  Footers : List Footer
  deriving DecidableEq, Repr

/-- A Go map from group names to strings, as an association list in which the
first binding of a key is the current one. -/
abbrev GroupMap := List (String × Str)

/-- The expression `byName[name]`: the zero value `""` for a missing key. -/
def GroupMap.get (m : GroupMap) (name : String) : Str := (m.lookup name).getD []

/-- The loop of `findGroups` over `r.SubexpNames()`, from index `i` on. -/
def fillGroups (m : List Str) : Nat → List String → GroupMap → GroupMap
  | _, [], byName => byName
  | i, name :: names, byName =>
    if i != 0 && name != "" then fillGroups m (i + 1) names ((name, m.getD i []) :: byName)
    else fillGroups m (i + 1) names byName

def findGroups (r : Regexp) (str : Str) : Except String GroupMap :=
  match r.FindStringSubmatch str with
  | none => .error "does not match"
  | some m => .ok (fillGroups m 0 r.subexpNames [])

/-- The class `[\w$.\-*/ ]` of the scope. -/
def isScopeChar (c : Char) : Bool :=
  isWord c || c == '$' || c == '.' || c == '-' || c == '*' || c == '/' || c == ' '

/-- The class `[\w\-]` of a footer token. -/
def isTokenChar (c : Char) : Bool := isWord c || c == '-'

/-- The pattern of `ParseHeader`:
`^(?P<type>\w+)(?:\((?P<scope>[\w$.\-*/ ]*)\))?(?P<breaking>!)?: (?P<msg>.*)$`. -/
def headerPattern : Regexp where
  prog :=
    .seq .bol <|
    .seq (.cap 1 (.plus isWord)) <|
    .seq (.opt (.seq (.lit ['(']) (.seq (.cap 2 (.star isScopeChar)) (.lit [')'])))) <|
    .seq (.opt (.cap 3 (.lit ['!']))) <|
    .seq (.lit [':', ' ']) <|
    .seq (.cap 4 (.star isDot)) .eol
  subexpNames := ["", "type", "scope", "breaking", "msg"]

/-- The pattern of `ParseFooter`:
`^(?P<token>BREAKING CHANGE|[\w\-]+)(?P<separator>(: )|( #))(?P<value>.+)$`. -/
def footerPattern : Regexp where
  prog :=
    .seq .bol <|
    .seq (.cap 1 (.alt (.lit "BREAKING CHANGE".toList) (.plus isTokenChar))) <|
    .seq (.cap 2 (.alt (.cap 3 (.lit [':', ' '])) (.cap 4 (.lit [' ', '#'])))) <|
    .seq (.cap 5 (.plus isDot)) .eol
  subexpNames := ["", "token", "separator", "", "", "value"]

def ParseHeader (line : Str) : Except String Header :=
  match findGroups headerPattern line with
  | .error err => .error err
  | .ok byName =>
    .ok {
      Type' := byName.get "type"
      Scope := byName.get "scope"
      Breaking := byName.get "breaking" == ['!']
      Message := byName.get "msg" }

def ParseFooter (line : Str) : Except String Footer :=
  match findGroups footerPattern line with
  | .error err => .error err
  | .ok byName =>
    .ok {
      Token := byName.get "token"
      Separator := byName.get "separator"
      Value := byName.get "value" }

def joinLines (lines : List Str) : Str := stringsJoin lines ['\n']

def removeTrailingNewline (str : Str) : Str := stringsTrimRight str ['\r', '\n']

def addFooter (footers : List Footer) (footer : Footer) (lines : List Str) : List Footer :=
  footers ++ [{ footer with Value := removeTrailingNewline (joinLines lines) }]

/-- Outcome of a Go call of type `(T, error)` that may also panic: the value
returned with a `nil` error, the text of a non-`nil` error, or the text of a
run-time panic. -/
inductive Result (α : Type) where
  | ok : α → Result α
  | error : String → Result α
  | panic : String → Result α
  deriving DecidableEq, Repr

/-- Sequencing of Go statements: an error or a panic ends the call. -/
def Result.bind {α β : Type} : Result α → (α → Result β) → Result β
  | .ok a, f => f a
  | .error e, _ => .error e
  | .panic e, _ => .panic e

/-- The index expression `xs[i]` of a slice: out of range is a run-time panic. -/
def goIndex {α : Type} (xs : List α) (i : Nat) : Result α :=
  match xs.get? i with
  | some x => .ok x
  | none => .panic "runtime error: index out of range"

/-- The slice expression `xs[lo:]`: the upper bound defaults to `len(xs)`, and
`lo > len(xs)` is a run-time panic (whose text is kept without the two bounds that
the Go runtime prints after it). -/
def goSliceFrom {α : Type} (xs : List α) (lo : Nat) : Result (List α) :=
  if lo ≤ xs.length then .ok (xs.drop lo)
  else .panic "runtime error: slice bounds out of range"

/-- The local variables of `ParseLines` that its loop updates. -/
structure LoopState where
  bodyLines : List Str
  footerStarted : Bool
  footer : Footer
  footerValueLines : List Str
  footers : List Footer

/-- The variables as declared before the loop (zero values, `footers` empty). -/
def LoopState.init : LoopState where
  bodyLines := []
  footerStarted := false
  footer := ⟨[], [], []⟩
  footerValueLines := []
  footers := []

/-- One iteration of the loop of `ParseLines`, for index `i` and line `line`;
`lineCount` is the variable after `lineCount -= 2`. -/
def loopBody (lineCount : Int) (i : Nat) (line : Str) (s : LoopState) : LoopState :=
  let s1 : LoopState :=
    match ParseFooter line with
    | .ok parsed =>
      let s0 : LoopState :=
        if s.footerStarted then
          { s with footers := addFooter s.footers s.footer s.footerValueLines }
        else { s with footerStarted := true }
      { s0 with footer := parsed, footerValueLines := [parsed.Value] }
    | .error _ =>
      if s.footerStarted then { s with footerValueLines := s.footerValueLines ++ [line] }
      else { s with bodyLines := s.bodyLines ++ [line] }
  if s1.footerStarted && (i : Int) == lineCount - 1 then
    { s1 with footers := addFooter s1.footers s1.footer s1.footerValueLines }
  else s1

/-- The loop `for i, line := range lines[2:]`, from index `i` on. -/
def loop (lineCount : Int) : List Str → Nat → LoopState → LoopState
  | [], _, s => s
  | line :: rest, i, s => loop lineCount rest (i + 1) (loopBody lineCount i line s)

def ParseLines (lines : List Str) : Result CommitMessage :=
  let lineCount : Int := lines.length
  if lineCount = 0 then .error "empty message"
  else
    (goIndex lines 0).bind fun line0 =>
    match ParseHeader line0 with
    | .error err => .error err
    | .ok header =>
      (if lineCount > 1 then (goIndex lines 1).bind fun line1 => .ok (line1 != [])
        else .ok false).bind fun noEmptyLine =>
      if noEmptyLine then .error "no empty line after header"
      else
        let lineCount := lineCount - 2
        (goSliceFrom lines 2).bind fun tail =>
        let s := loop lineCount tail 0 LoopState.init
        .ok {
          Header := header
          Body := removeTrailingNewline (joinLines s.bodyLines)
          Footers := s.footers }

/-- The call `strings.Split(s, "\n")`. -/
def splitNewline : Str → List Str
  | [] => [[]]
  | c :: r =>
    if c = '\n' then [] :: splitNewline r
    else
      match splitNewline r with
      | [] => [[c]]
      | x :: xs => (c :: x) :: xs

/-- The call `strings.TrimSuffix(s, "\r")`. -/
def trimSuffixCR (s : Str) : Str :=
  if s.getLast? = some '\r' then s.dropLast else s

def splitToLines (str : Str) : List Str :=
  (splitNewline str).map trimSuffixCR

/-- The highest-priority match of `re` at the position `st` ends in `st'`. -/
def First (re : Re) (st st' : MState) : Prop := ∃ more, re.run st = st' :: more

/-- The fields of a header read off the captures of a match of `headerPattern`. -/
def headerOfCaps (caps : List (Nat × Str)) : Header where
  Type' := (caps.lookup 1).getD []
  Scope := (caps.lookup 2).getD []
  Breaking := (caps.lookup 3).getD [] == ['!']
  Message := (caps.lookup 4).getD []

/-- The fields of a footer read off the captures of a match of `footerPattern`. -/
def footerOfCaps (caps : List (Nat × Str)) : Footer where
  Token := (caps.lookup 1).getD []
  Separator := (caps.lookup 2).getD []
  Value := (caps.lookup 5).getD []

/-- Whether a line matches the footer grammar, that is, whether `ParseFooter` returns
a `nil` error on it. -/
def isFooterLine (line : Str) : Bool :=
  match ParseFooter line with
  | .ok _ => true
  | .error _ => false

/-- The footer that `addFooter` appends for a pending `footer` and its value lines. -/
def finalize (footer : Footer) (lines : List Str) : Footer :=
  { footer with Value := removeTrailingNewline (joinLines lines) }

/-- The footers of a message as the specification describes them: each line that
matches the footer grammar opens a footer, whose value lines are the matched value
followed by the maximal run of non-matching lines after it. -/
def footersOf : List Str → List Footer
  | [] => []
  | line :: rest =>
    match ParseFooter line with
    | .ok parsed =>
      finalize parsed (parsed.Value :: rest.takeWhile (fun l => !isFooterLine l)) :: footersOf rest
    | .error _ => footersOf rest

/-- The text `s` with every `"\n"` replaced by `"\r\n"`, as
`strings.ReplaceAll(s, "\n", "\r\n")` computes it. -/
def toCRLF : Str → Str
  | [] => []
  | c :: r => if c = '\n' then '\r' :: '\n' :: toCRLF r else c :: toCRLF r

/-! ## The matcher -/

theorem search_bol_ne (r : Re) : ∀ (rest pre : Str), pre ≠ [] →
    search (Re.seq Re.bol r) pre rest = none := by
  intro rest
  induction rest with
  | nil => intro pre h; simp [search, Re.run, h]
  | cons c t ih =>
    intro pre h
    simp [search, Re.run, h, ih]

theorem search_bol (r : Re) (s : Str) :
    search (Re.seq Re.bol r) [] s =
      (((Re.seq Re.bol r).run ⟨[], s, []⟩).head?).map (fun m => ([], m)) := by
  cases s with
  | nil => simp [search]
  | cons c t =>
    simp only [search]
    cases h : ((Re.seq Re.bol r).run ⟨[], c :: t, []⟩).head? with
    | none => simp [search_bol_ne]
    | some m => simp

theorem ParseHeader_eq (line : Str) :
    ParseHeader line =
      match (headerPattern.prog.run ⟨[], line, []⟩).head? with
      | none => .error "does not match"
      | some m => .ok (headerOfCaps m.caps) := by
  unfold ParseHeader findGroups Regexp.FindStringSubmatch
  have h := search_bol (Re.seq (.cap 1 (.plus isWord)) <|
    .seq (.opt (.seq (.lit ['(']) (.seq (.cap 2 (.star isScopeChar)) (.lit [')'])))) <|
    .seq (.opt (.cap 3 (.lit ['!']))) <|
    .seq (.lit [':', ' ']) <|
    .seq (.cap 4 (.star isDot)) .eol) line
  simp only [headerPattern] at h ⊢
  rw [h]
  cases ((Re.seq Re.bol _).run ⟨[], line, []⟩).head? with
  | none => rfl
  | some m => rfl

theorem ParseFooter_eq (line : Str) :
    ParseFooter line =
      match (footerPattern.prog.run ⟨[], line, []⟩).head? with
      | none => .error "does not match"
      | some m => .ok (footerOfCaps m.caps) := by
  unfold ParseFooter findGroups Regexp.FindStringSubmatch
  have h := search_bol (Re.seq (.cap 1 (.alt (.lit "BREAKING CHANGE".toList) (.plus isTokenChar))) <|
    .seq (.cap 2 (.alt (.cap 3 (.lit [':', ' '])) (.cap 4 (.lit [' ', '#'])))) <|
    .seq (.cap 5 (.plus isDot)) .eol) line
  simp only [footerPattern] at h ⊢
  rw [h]
  cases ((Re.seq Re.bol _).run ⟨[], line, []⟩).head? with
  | none => rfl
  | some m => rfl

theorem runStar_first (p : Char → Bool) (caps : List (Nat × Str)) :
    ∀ (w pre tail : Str), (∀ c ∈ w, p c = true) → (∀ c r, tail = c :: r → p c = false) →
      ∃ more, runStar p caps pre (w ++ tail) = ⟨pre ++ w, tail, caps⟩ :: more := by
  intro w
  induction w with
  | nil =>
    intro pre tail _ ht
    cases tail with
    | nil => exact ⟨[], by simp [runStar]⟩
    | cons c r => exact ⟨[], by simp [runStar, ht c r rfl]⟩
  | cons a w ih =>
    intro pre tail hw ht
    obtain ⟨more, hm⟩ := ih (pre ++ [a]) tail (fun c hc => hw c (List.mem_cons_of_mem _ hc)) ht
    refine ⟨more ++ [⟨pre, a :: (w ++ tail), caps⟩], ?_⟩
    simp [runStar, hw a (List.mem_cons_self _ _), hm]

theorem First.star (p : Char → Bool) (st : MState) (w tail : Str) (hr : st.rest = w ++ tail)
    (hw : ∀ c ∈ w, p c = true) (ht : ∀ c r, tail = c :: r → p c = false) :
    First (Re.star p) st ⟨st.pre ++ w, tail, st.caps⟩ := by
  obtain ⟨more, hm⟩ := runStar_first p st.caps w st.pre tail hw ht
  exact ⟨more, by simp [Re.run, hr, hm]⟩

theorem First.seq {a b : Re} {st m st' : MState} (ha : First a st m) (hb : First b m st') :
    First (Re.seq a b) st st' := by
  obtain ⟨ma, ha⟩ := ha
  obtain ⟨mb, hb⟩ := hb
  exact ⟨mb ++ ma.flatMap (fun m => b.run m), by simp [Re.run, ha, hb]⟩

theorem First.plus (p : Char → Bool) (st : MState) (c : Char) (w tail : Str)
    (hr : st.rest = c :: (w ++ tail)) (hc : p c = true)
    (hw : ∀ c ∈ w, p c = true) (ht : ∀ c r, tail = c :: r → p c = false) :
    First (Re.plus p) st ⟨st.pre ++ c :: w, tail, st.caps⟩ := by
  have h1 : First (Re.cls p) st ⟨st.pre ++ [c], w ++ tail, st.caps⟩ :=
    ⟨[], by simp [Re.run, hr, hc]⟩
  have h2 := First.star p ⟨st.pre ++ [c], w ++ tail, st.caps⟩ w tail rfl hw ht
  simpa [Re.plus] using First.seq h1 h2

theorem First.alt_left {a : Re} (b : Re) {st st' : MState} (ha : First a st st') :
    First (Re.alt a b) st st' := by
  obtain ⟨ma, ha⟩ := ha
  exact ⟨ma ++ b.run st, by simp [Re.run, ha]⟩

theorem First.alt_right {a b : Re} {st st' : MState} (ha : a.run st = [])
    (hb : First b st st') : First (Re.alt a b) st st' := by
  obtain ⟨mb, hb⟩ := hb
  exact ⟨mb, by simp [Re.run, ha, hb]⟩

theorem First.cap (i : Nat) {a : Re} {st m : MState} (ha : First a st m) :
    First (Re.cap i a) st ⟨m.pre, m.rest, (i, m.pre.drop st.pre.length) :: m.caps⟩ := by
  obtain ⟨ma, ha⟩ := ha
  exact ⟨ma.map (fun m => ⟨m.pre, m.rest, (i, m.pre.drop st.pre.length) :: m.caps⟩),
    by simp only [Re.run, ha, List.map_cons]⟩

theorem First.lit (s : Str) (st : MState) (tail : Str) (hr : st.rest = s ++ tail) :
    First (Re.lit s) st ⟨st.pre ++ s, tail, st.caps⟩ :=
  ⟨[], by simp [Re.run, hr]⟩

theorem First.empty (st : MState) : First Re.empty st st := ⟨[], rfl⟩

theorem First.eol (st : MState) (h : st.rest = []) : First Re.eol st st :=
  ⟨[], by simp [Re.run, h]⟩

theorem First.bol (st : MState) (h : st.pre = []) : First Re.bol st st :=
  ⟨[], by simp [Re.run, h]⟩

theorem First.head? {re : Re} {st st' : MState} (h : First re st st') :
    (re.run st).head? = some st' := by
  obtain ⟨more, h⟩ := h
  simp [h]

theorem run_lit_nil (s : Str) (st : MState) (h : ¬ s <+: st.rest) : (Re.lit s).run st = [] := by
  simp [Re.run, h]

theorem run_seq_nil (a b : Re) (st : MState) (h : a.run st = []) : (Re.seq a b).run st = [] := by
  simp [Re.run, h]

theorem run_cap_nil (i : Nat) (a : Re) (st : MState) (h : a.run st = []) :
    (Re.cap i a).run st = [] := by
  simp [Re.run, h]

theorem First.cap_word (i : Nat) {a : Re} {st m : MState} (w : Str) (ha : First a st m)
    (hw : m.pre = st.pre ++ w) :
    First (Re.cap i a) st ⟨m.pre, m.rest, (i, w) :: m.caps⟩ := by
  have h := First.cap i ha
  rw [hw, List.drop_left] at h
  rw [hw]
  exact h

theorem First.opt_skip {a : Re} {st : MState} (ha : a.run st = []) : First (Re.opt a) st st :=
  First.alt_right ha (First.empty st)

/-! ## `ParseHeader` on lines built from the grammar -/

/-- The end of a header line, from the breaking-change mark on. -/
theorem headerMatch_tail (pre msg : Str) (caps : List (Nat × Str)) (breaking : Bool)
    (hm : '\n' ∉ msg) (hc3 : caps.lookup 3 = none) :
    ∃ m, First
      (.seq (.opt (.cap 3 (.lit ['!']))) <| .seq (.lit [':', ' ']) <|
        .seq (.cap 4 (.star isDot)) .eol)
      ⟨pre, (if breaking then ['!'] else []) ++ ':' :: ' ' :: msg, caps⟩ m ∧
      m.caps.lookup 4 = some msg ∧
      (m.caps.lookup 3).getD [] = (if breaking then ['!'] else []) ∧
      m.caps.lookup 2 = caps.lookup 2 ∧ m.caps.lookup 1 = caps.lookup 1 := by
  have hdot : ∀ c ∈ msg, isDot c = true := by
    intro c hc
    simp only [isDot, bne_iff_ne, ne_eq]
    rintro rfl
    exact hm hc
  cases breaking with
  | true =>
    have h3 := First.cap_word 3 ['!'] (First.lit ['!'] ⟨pre, '!' :: ':' :: ' ' :: msg, caps⟩ _ rfl) rfl
    have h4 := First.lit [':', ' '] ⟨pre ++ ['!'], ':' :: ' ' :: msg, (3, ['!']) :: caps⟩ msg rfl
    have h5 := First.cap_word 4 msg
      (First.star isDot ⟨pre ++ ['!'] ++ [':', ' '], msg, (3, ['!']) :: caps⟩ msg [] (by simp) hdot
        (by simp)) rfl
    exact ⟨_, First.seq (First.alt_left _ h3) (First.seq h4 (First.seq h5 (First.eol _ rfl))),
      by simp [List.lookup]⟩
  | false =>
    have h3 : First (.opt (.cap 3 (.lit ['!']))) ⟨pre, ':' :: ' ' :: msg, caps⟩ _ :=
      First.opt_skip (run_cap_nil _ _ _ (run_lit_nil _ _ (by simp)))
    have h4 := First.lit [':', ' '] ⟨pre, ':' :: ' ' :: msg, caps⟩ msg rfl
    have h5 := First.cap_word 4 msg
      (First.star isDot ⟨pre ++ [':', ' '], msg, caps⟩ msg [] (by simp) hdot (by simp)) rfl
    refine ⟨_, First.seq h3 (First.seq h4 (First.seq h5 (First.eol _ rfl))), ?_⟩
    simp [List.lookup, hc3]

theorem headerMatch_scope (c : Char) (w scope msg : Str) (breaking : Bool)
    (hc : isWord c = true) (hw : ∀ x ∈ w, isWord x = true)
    (hs : ∀ x ∈ scope, isScopeChar x = true) (hm : '\n' ∉ msg) :
    ∃ m, First headerPattern.prog
      ⟨[], c :: (w ++ '(' :: (scope ++ ')' ::
        ((if breaking then ['!'] else []) ++ ':' :: ' ' :: msg))), []⟩ m ∧
      headerOfCaps m.caps = ⟨c :: w, scope, breaking, msg⟩ := by
  have h1 := First.cap_word 1 (c :: w)
    (First.plus isWord ⟨[], c :: (w ++ '(' :: (scope ++ ')' ::
        ((if breaking then ['!'] else []) ++ ':' :: ' ' :: msg))), []⟩ c w _ rfl hc hw
      (by intro x r h; cases h; decide)) rfl
  have h2a := First.lit ['('] ⟨c :: w, '(' :: (scope ++ ')' ::
        ((if breaking then ['!'] else []) ++ ':' :: ' ' :: msg)), [(1, c :: w)]⟩ _ rfl
  have h2b := First.cap_word 2 scope
    (First.star isScopeChar ⟨c :: w ++ ['('], scope ++ ')' ::
        ((if breaking then ['!'] else []) ++ ':' :: ' ' :: msg), [(1, c :: w)]⟩ scope _ rfl hs
      (by intro x r h; cases h; decide)) rfl
  have h2c := First.lit [')'] ⟨c :: w ++ ['('] ++ scope, ')' ::
        ((if breaking then ['!'] else []) ++ ':' :: ' ' :: msg), [(2, scope), (1, c :: w)]⟩ _ rfl
  obtain ⟨m, hm1, hm4, hm3, hm2, hm1'⟩ := headerMatch_tail (c :: w ++ ['('] ++ scope ++ [')']) msg
    [(2, scope), (1, c :: w)] breaking hm (by simp [List.lookup])
  refine ⟨m, First.seq (First.bol _ rfl) (First.seq h1
    (First.seq (First.alt_left _ (First.seq h2a (First.seq h2b h2c))) hm1)), ?_⟩
  simp only [headerOfCaps, hm4, hm3, hm2, hm1']
  cases breaking <;> simp [List.lookup]

theorem headerMatch_noscope (c : Char) (w msg : Str) (breaking : Bool)
    (hc : isWord c = true) (hw : ∀ x ∈ w, isWord x = true) (hm : '\n' ∉ msg) :
    ∃ m, First headerPattern.prog
      ⟨[], c :: (w ++ ((if breaking then ['!'] else []) ++ ':' :: ' ' :: msg)), []⟩ m ∧
      headerOfCaps m.caps = ⟨c :: w, [], breaking, msg⟩ := by
  have h1 := First.cap_word 1 (c :: w)
    (First.plus isWord ⟨[], c :: (w ++ ((if breaking then ['!'] else []) ++ ':' :: ' ' :: msg)),
      []⟩ c w _ rfl hc hw (by intro x r h; cases breaking <;> cases h <;> decide)) rfl
  have h2 : First (.opt (.seq (.lit ['(']) (.seq (.cap 2 (.star isScopeChar)) (.lit [')']))))
      ⟨c :: w, (if breaking then ['!'] else []) ++ ':' :: ' ' :: msg, [(1, c :: w)]⟩ _ :=
    First.opt_skip (run_seq_nil _ _ _ (run_lit_nil _ _ (by cases breaking <;> simp)))
  obtain ⟨m, hm1, hm4, hm3, hm2, hm1'⟩ := headerMatch_tail (c :: w) msg
    [(1, c :: w)] breaking hm (by simp [List.lookup])
  refine ⟨m, First.seq (First.bol _ rfl) (First.seq h1 (First.seq h2 hm1)), ?_⟩
  simp only [headerOfCaps, hm4, hm3, hm2, hm1']
  cases breaking <;> simp [List.lookup]

/-! ## `ParseFooter` on lines built from the grammar -/

theorem takeWhile_word_tail {α : Type} (p : α → Bool) :
    ∀ (w tail : List α), (∀ c ∈ w, p c = true) → (∀ c r, tail = c :: r → p c = false) →
      (w ++ tail).takeWhile p = w := by
  intro w
  induction w with
  | nil =>
    intro tail _ ht
    cases tail with
    | nil => rfl
    | cons c r => simp [List.takeWhile, ht c r rfl]
  | cons a w ih =>
    intro tail hw ht
    simp [List.takeWhile, hw a (List.mem_cons_self _ _),
      ih tail (fun c hc => hw c (List.mem_cons_of_mem _ hc)) ht]

theorem word_tail_unique (p : Char → Bool) (w₁ w₂ t₁ t₂ : Str)
    (hw₁ : ∀ c ∈ w₁, p c = true) (hw₂ : ∀ c ∈ w₂, p c = true)
    (ht₁ : ∀ c r, t₁ = c :: r → p c = false) (ht₂ : ∀ c r, t₂ = c :: r → p c = false)
    (h : w₁ ++ t₁ = w₂ ++ t₂) : w₁ = w₂ ∧ t₁ = t₂ := by
  have e : w₁ = w₂ := by
    rw [← takeWhile_word_tail p w₁ t₁ hw₁ ht₁, ← takeWhile_word_tail p w₂ t₂ hw₂ ht₂, h]
  subst e
  exact ⟨rfl, List.append_cancel_left h⟩

theorem breakingChange_no_match (token sep value : Str)
    (ht : ∀ c ∈ token, isTokenChar c = true) (hs : sep = [':', ' '] ∨ sep = [' ', '#']) :
    ¬ "BREAKING CHANGE".toList <+: token ++ (sep ++ value) := by
  rintro ⟨x, hx⟩
  have e : "BREAKING CHANGE".toList ++ x = "BREAKING".toList ++ (' ' :: 'C' :: ("HANGE".toList ++ x)) := by
    rfl
  rw [e] at hx
  have hsep : ∀ c r, sep ++ value = c :: r → isTokenChar c = false := by
    intro c r h
    rcases hs with rfl | rfl <;> cases h <;> decide
  obtain ⟨-, h2⟩ := word_tail_unique isTokenChar _ _ _ _ (by decide) ht
    (by intro c r h; cases h; decide) hsep hx
  rcases hs with rfl | rfl
  · simp at h2
  · simp at h2

theorem footerMatch_tail (pre sep : Str) (v : Char) (vs : Str) (caps : List (Nat × Str))
    (hs : sep = [':', ' '] ∨ sep = [' ', '#']) (hv : v ≠ '\n') (hvs : '\n' ∉ vs) :
    ∃ m, First
      (.seq (.cap 2 (.alt (.cap 3 (.lit [':', ' '])) (.cap 4 (.lit [' ', '#'])))) <|
        .seq (.cap 5 (.plus isDot)) .eol)
      ⟨pre, sep ++ v :: vs, caps⟩ m ∧
      footerOfCaps m.caps = ⟨(caps.lookup 1).getD [], v :: vs, sep⟩ := by
  have hdot : ∀ c ∈ vs, isDot c = true := by
    intro c hc
    simp only [isDot, bne_iff_ne, ne_eq]
    rintro rfl
    exact hvs hc
  have hv' : isDot v = true := by simpa [isDot] using hv
  rcases hs with rfl | rfl
  · have h3 := First.cap_word 3 [':', ' ']
      (First.lit [':', ' '] ⟨pre, ':' :: ' ' :: v :: vs, caps⟩ _ rfl) rfl
    have h2 := First.cap_word 2 [':', ' '] (First.alt_left (.cap 4 (.lit [' ', '#'])) h3) rfl
    have h5 := First.cap_word 5 (v :: vs)
      (First.plus isDot ⟨pre ++ [':', ' '], v :: vs, (2, [':', ' ']) :: (3, [':', ' ']) :: caps⟩
        v vs [] (by simp) hv' hdot (by simp)) rfl
    refine ⟨_, First.seq h2 (First.seq h5 (First.eol _ rfl)), ?_⟩
    simp [footerOfCaps, List.lookup]
  · have h4 := First.cap_word 4 [' ', '#']
      (First.lit [' ', '#'] ⟨pre, ' ' :: '#' :: v :: vs, caps⟩ _ rfl) rfl
    have h2 := First.cap_word 2 [' ', '#']
      (First.alt_right (a := .cap 3 (.lit [':', ' ']))
        (run_cap_nil _ _ _ (run_lit_nil _ _ (by simp))) h4) rfl
    have h5 := First.cap_word 5 (v :: vs)
      (First.plus isDot ⟨pre ++ [' ', '#'], v :: vs, (2, [' ', '#']) :: (4, [' ', '#']) :: caps⟩
        v vs [] (by simp) hv' hdot (by simp)) rfl
    refine ⟨_, First.seq h2 (First.seq h5 (First.eol _ rfl)), ?_⟩
    simp [footerOfCaps, List.lookup]

theorem footerMatch (token sep : Str) (v : Char) (vs : Str)
    (ht : token = "BREAKING CHANGE".toList ∨ (token ≠ [] ∧ ∀ c ∈ token, isTokenChar c = true))
    (hs : sep = [':', ' '] ∨ sep = [' ', '#']) (hv : v ≠ '\n') (hvs : '\n' ∉ vs) :
    ∃ m, First footerPattern.prog ⟨[], token ++ (sep ++ v :: vs), []⟩ m ∧
      footerOfCaps m.caps = ⟨token, v :: vs, sep⟩ := by
  have h1 : First (.cap 1 (.alt (.lit "BREAKING CHANGE".toList) (.plus isTokenChar)))
      ⟨[], token ++ (sep ++ v :: vs), []⟩ ⟨token, sep ++ v :: vs, [(1, token)]⟩ := by
    rcases ht with rfl | ⟨hne, htc⟩
    · exact First.cap_word 1 _ (First.alt_left _ (First.lit "BREAKING CHANGE".toList
        ⟨[], "BREAKING CHANGE".toList ++ (sep ++ v :: vs), []⟩ _ rfl)) rfl
    · obtain ⟨c, w, rfl⟩ := List.exists_cons_of_ne_nil hne
      have hsep : ∀ x r, sep ++ v :: vs = x :: r → isTokenChar x = false := by
        intro x r h
        rcases hs with rfl | rfl <;> cases h <;> decide
      exact First.cap_word 1 (c :: w)
        (First.alt_right (run_lit_nil _ _ (breakingChange_no_match (c :: w) sep (v :: vs) htc hs))
          (First.plus isTokenChar ⟨[], c :: (w ++ (sep ++ v :: vs)), []⟩ c w _ rfl
            (htc c (List.mem_cons_self _ _)) (fun x hx => htc x (List.mem_cons_of_mem _ hx))
            hsep)) rfl
  obtain ⟨m, hm, hf⟩ := footerMatch_tail token sep v vs [(1, token)] hs hv hvs
  refine ⟨m, First.seq (First.bol _ rfl) (First.seq h1 hm), ?_⟩
  simpa [List.lookup] using hf

/-! ## Every match has the shape of the grammar -/

theorem mem_runStar (p : Char → Bool) (caps : List (Nat × Str)) :
    ∀ (rest pre : Str) (st' : MState), st' ∈ runStar p caps pre rest →
      ∃ w, (∀ c ∈ w, p c = true) ∧ rest = w ++ st'.rest ∧ st'.pre = pre ++ w ∧ st'.caps = caps := by
  intro rest
  induction rest with
  | nil =>
    intro pre st' h
    simp only [runStar, List.mem_singleton] at h
    subst h
    exact ⟨[], by simp⟩
  | cons a r ih =>
    intro pre st' h
    simp only [runStar] at h
    split at h
    · rename_i hp
      rcases List.mem_append.1 h with h | h
      · obtain ⟨w, hw, hr, hpre, hc⟩ := ih _ _ h
        refine ⟨a :: w, ?_, by simp [← hr], by simp [hpre], hc⟩
        intro c hc'
        rcases List.mem_cons.1 hc' with rfl | hc'
        · exact hp
        · exact hw c hc'
      · simp only [List.mem_singleton] at h
        subst h
        exact ⟨[], by simp⟩
    · simp only [List.mem_singleton] at h
      subst h
      exact ⟨[], by simp⟩

theorem mem_run_seq {a b : Re} {st st' : MState} (h : st' ∈ (Re.seq a b).run st) :
    ∃ m, m ∈ a.run st ∧ st' ∈ b.run m := by
  simpa [Re.run] using h

theorem mem_run_lit {s : Str} {st st' : MState} (h : st' ∈ (Re.lit s).run st) :
    st.rest = s ++ st'.rest ∧ st'.pre = st.pre ++ s ∧ st'.caps = st.caps := by
  simp only [Re.run] at h
  split at h
  · rename_i hp
    simp only [List.mem_singleton] at h
    subst h
    obtain ⟨t, ht⟩ := List.isPrefixOf_iff_prefix.1 hp
    simp [← ht]
  · simp at h

theorem mem_run_star {p : Char → Bool} {st st' : MState} (h : st' ∈ (Re.star p).run st) :
    ∃ w, (∀ c ∈ w, p c = true) ∧ st.rest = w ++ st'.rest ∧ st'.pre = st.pre ++ w ∧
      st'.caps = st.caps :=
  mem_runStar p st.caps st.rest st.pre st' (by simpa [Re.run] using h)

theorem mem_run_plus {p : Char → Bool} {st st' : MState} (h : st' ∈ (Re.plus p).run st) :
    ∃ c w, p c = true ∧ (∀ x ∈ w, p x = true) ∧ st.rest = c :: (w ++ st'.rest) ∧
      st'.pre = st.pre ++ c :: w ∧ st'.caps = st.caps := by
  obtain ⟨m, hm, h⟩ := mem_run_seq h
  obtain ⟨w, hw, hr, hpre, hc⟩ := mem_run_star h
  simp only [Re.run] at hm
  split at hm
  · simp at hm
  · rename_i c r hrest
    split at hm
    · rename_i hp
      simp only [List.mem_singleton] at hm
      subst hm
      exact ⟨c, w, hp, hw, by simp_all, by simp_all, by simp_all⟩
    · simp at hm

theorem mem_run_cap {i : Nat} {a : Re} {st st' : MState} (h : st' ∈ (Re.cap i a).run st) :
    ∃ m, m ∈ a.run st ∧ st'.pre = m.pre ∧ st'.rest = m.rest ∧
      st'.caps = (i, m.pre.drop st.pre.length) :: m.caps := by
  simp only [Re.run, List.mem_map] at h
  obtain ⟨m, hm, rfl⟩ := h
  exact ⟨m, hm, rfl, rfl, rfl⟩

theorem mem_run_alt {a b : Re} {st st' : MState} (h : st' ∈ (Re.alt a b).run st) :
    st' ∈ a.run st ∨ st' ∈ b.run st := by
  simpa [Re.run] using h

theorem mem_run_opt {a : Re} {st st' : MState} (h : st' ∈ (Re.opt a).run st) :
    st' ∈ a.run st ∨ st' = st := by
  simpa [Re.run, Re.opt] using h

theorem mem_run_bol {st st' : MState} (h : st' ∈ Re.bol.run st) : st.pre = [] ∧ st' = st := by
  simp only [Re.run] at h
  split at h
  · exact ⟨by assumption, by simpa using h⟩
  · simp at h

theorem mem_run_eol {st st' : MState} (h : st' ∈ Re.eol.run st) : st.rest = [] ∧ st' = st := by
  simp only [Re.run] at h
  split at h
  · exact ⟨by assumption, by simpa using h⟩
  · simp at h

theorem not_mem_of_isDot {msg : Str} (h : ∀ c ∈ msg, isDot c = true) : '\n' ∉ msg := by
  intro hn
  have := h _ hn
  simp [isDot] at this

theorem mem_headerTail {pre rest : Str} {caps : List (Nat × Str)} {st' : MState}
    (h : st' ∈ (Re.seq (.opt (.cap 3 (.lit ['!']))) <| .seq (.lit [':', ' ']) <|
        .seq (.cap 4 (.star isDot)) .eol).run ⟨pre, rest, caps⟩) :
    ∃ (breaking : Bool) (msg : Str), '\n' ∉ msg ∧
      rest = (if breaking then ['!'] else []) ++ ':' :: ' ' :: msg ∧
      st'.caps = (4, msg) :: (if breaking then (3, ['!']) :: caps else caps) := by
  obtain ⟨m3, h3, h⟩ := mem_run_seq h
  obtain ⟨m4, h4, h⟩ := mem_run_seq h
  obtain ⟨m5, h5, h⟩ := mem_run_seq h
  obtain ⟨-, rfl⟩ := mem_run_eol h
  obtain ⟨n5, hn5, e5p, e5r, e5c⟩ := mem_run_cap h5
  obtain ⟨msg, hmsg, e5, e5', e5''⟩ := mem_run_star hn5
  obtain ⟨e4, e4', e4''⟩ := mem_run_lit h4
  have hend := (mem_run_eol h).1
  rw [e5r] at hend
  rw [hend, List.append_nil] at e5
  rw [e5', List.drop_left, e5''] at e5c
  rw [e5] at e4
  rcases mem_run_opt h3 with h3 | rfl
  · obtain ⟨n3, hn3, e3p, e3r, e3c⟩ := mem_run_cap h3
    obtain ⟨e3, e3', e3''⟩ := mem_run_lit hn3
    refine ⟨true, msg, not_mem_of_isDot hmsg, ?_, ?_⟩
    · simp only [] at e3
      rw [e3, ← e3r, e4]
      simp
    · simp only [] at e3' e3''
      rw [e5c, e4'', e3c, e3', List.drop_left, e3'']
      simp
  · refine ⟨false, msg, not_mem_of_isDot hmsg, ?_, ?_⟩
    · simpa using e4
    · rw [e5c, e4'']
      simp

theorem mem_headerPattern {line : Str} {st' : MState}
    (h : st' ∈ headerPattern.prog.run ⟨[], line, []⟩) :
    ∃ (type scope S msg : Str) (breaking : Bool),
      type ≠ [] ∧ (∀ c ∈ type, isWord c = true) ∧ (∀ c ∈ scope, isScopeChar c = true) ∧
      '\n' ∉ msg ∧ ((S = [] ∧ scope = []) ∨ S = ['('] ++ scope ++ [')']) ∧
      line = type ++ S ++ (if breaking then ['!'] else []) ++ [':', ' '] ++ msg ∧
      headerOfCaps st'.caps = ⟨type, scope, breaking, msg⟩ := by
  simp only [headerPattern] at h
  obtain ⟨m0, h0, hA⟩ := mem_run_seq h
  obtain ⟨-, rfl⟩ := mem_run_bol h0
  obtain ⟨m1, h1, hB⟩ := mem_run_seq hA
  obtain ⟨m2, h2, hC⟩ := mem_run_seq hB
  clear h hA hB h0
  obtain ⟨n1, hn1, e1p, e1r, e1c⟩ := mem_run_cap h1
  obtain ⟨c, w, hc, hw, e1, e1', e1''⟩ := mem_run_plus hn1
  simp only [List.nil_append] at e1 e1'
  simp only [e1', e1'', List.length_nil, List.drop_zero] at e1c
  have hword : ∀ x ∈ c :: w, isWord x = true := by
    intro x hx
    rcases List.mem_cons.1 hx with rfl | hx
    · exact hc
    · exact hw x hx
  obtain ⟨p2, r2, c2⟩ := m2
  rcases mem_run_opt h2 with h2 | h2
  · obtain ⟨ma, ha, h2⟩ := mem_run_seq h2
    obtain ⟨mb, hb, h2⟩ := mem_run_seq h2
    obtain ⟨ea, ea', ea''⟩ := mem_run_lit ha
    obtain ⟨nb, hnb, ebp, ebr, ebc⟩ := mem_run_cap hb
    obtain ⟨scope, hscope, eb, eb', eb''⟩ := mem_run_star hnb
    obtain ⟨ec, ec', ec''⟩ := mem_run_lit h2
    simp only [] at ec ec' ec''
    rw [eb', List.drop_left, eb'', ea'', e1c] at ebc
    obtain ⟨breaking, msg, hmsg, hrest, hcaps⟩ := mem_headerTail hC
    refine ⟨c :: w, scope, ['('] ++ scope ++ [')'], msg, breaking, by simp, hword, hscope, hmsg,
      Or.inr rfl, ?_, ?_⟩
    · rw [e1, ← e1r, ea, eb, ← ebr, ec, hrest]
      simp
    · rw [hcaps, ec'', ebc]
      cases breaking <;> simp [headerOfCaps, List.lookup]
  · cases h2
    obtain ⟨breaking, msg, hmsg, hrest, hcaps⟩ := mem_headerTail hC
    refine ⟨c :: w, [], [], msg, breaking, by simp, hword, by simp, hmsg, Or.inl ⟨rfl, rfl⟩, ?_, ?_⟩
    · rw [e1, ← e1r, hrest]
      simp
    · simp only [] at e1c
      rw [hcaps, e1c]
      cases breaking <;> simp [headerOfCaps, List.lookup]

/-! ## Claims about the two grammars -/

/-- C1. Header round trip: for a type of one or more word characters, a scope made of
word characters, `$`, `.`, `-`, `*`, `/` and space, a breaking flag and a message
without newline, `ParseHeader` of `type(scope)!: message` (the `!` present iff
breaking) returns exactly these four components, and the line without the
parenthesised part parses to the same header with an empty scope. -/
theorem ParseHeader_roundtrip (type scope message : Str) (breaking : Bool)
    (ht : type ≠ []) (hw : ∀ c ∈ type, isWord c = true)
    (hs : ∀ c ∈ scope, isScopeChar c = true) (hm : '\n' ∉ message) :
    ParseHeader (type ++ ['('] ++ scope ++ [')'] ++ (if breaking then ['!'] else []) ++
        [':', ' '] ++ message) = .ok ⟨type, scope, breaking, message⟩ ∧
    ParseHeader (type ++ (if breaking then ['!'] else []) ++ [':', ' '] ++ message) =
      .ok ⟨type, [], breaking, message⟩ := by
  obtain ⟨c, w, rfl⟩ := List.exists_cons_of_ne_nil ht
  have hc := hw c (List.mem_cons_self _ _)
  have hw' : ∀ x ∈ w, isWord x = true := fun x hx => hw x (List.mem_cons_of_mem _ hx)
  obtain ⟨m₁, hf₁, hh₁⟩ := headerMatch_scope c w scope message breaking hc hw' hs hm
  obtain ⟨m₂, hf₂, hh₂⟩ := headerMatch_noscope c w message breaking hc hw' hm
  constructor
  · rw [ParseHeader_eq]
    have e : c :: w ++ ['('] ++ scope ++ [')'] ++ (if breaking then ['!'] else []) ++
        [':', ' '] ++ message = c :: (w ++ '(' :: (scope ++ ')' ::
        ((if breaking then ['!'] else []) ++ ':' :: ' ' :: message))) := by simp
    rw [e, hf₁.head?]
    simp only [hh₁]
  · rw [ParseHeader_eq]
    have e : c :: w ++ (if breaking then ['!'] else []) ++ [':', ' '] ++ message =
        c :: (w ++ ((if breaking then ['!'] else []) ++ ':' :: ' ' :: message)) := by simp
    rw [e, hf₂.head?]
    simp only [hh₂]

theorem ParseHeader_roundtrip_witness :
    ParseHeader ("feat".toList ++ ['('] ++ "api".toList ++ [')'] ++ (if true then ['!'] else []) ++
        [':', ' '] ++ "hello world".toList) =
      .ok ⟨"feat".toList, "api".toList, true, "hello world".toList⟩ ∧
    ParseHeader ("feat".toList ++ (if true then ['!'] else []) ++ [':', ' '] ++
        "hello world".toList) = .ok ⟨"feat".toList, [], true, "hello world".toList⟩ :=
  ParseHeader_roundtrip "feat".toList "api".toList "hello world".toList true
    (by decide) (by decide) (by decide) (by decide)

/-- C6. Footer round trip: for a token that is `BREAKING CHANGE` or one or more word
characters and hyphens, a separator `": "` or `" #"` and a non-empty value without
newline, `ParseFooter (token ++ separator ++ value)` returns exactly that token,
separator and value. -/
theorem ParseFooter_roundtrip (token separator value : Str)
    (ht : token = "BREAKING CHANGE".toList ∨ (token ≠ [] ∧ ∀ c ∈ token, isTokenChar c = true))
    (hs : separator = [':', ' '] ∨ separator = [' ', '#'])
    (hv : value ≠ []) (hn : '\n' ∉ value) :
    ParseFooter (token ++ separator ++ value) =
      .ok { Token := token, Separator := separator, Value := value } := by
  obtain ⟨v, vs, rfl⟩ := List.exists_cons_of_ne_nil hv
  obtain ⟨m, hf, hm⟩ := footerMatch token separator v vs ht hs
    (by rintro rfl; exact hn (List.mem_cons_self _ _))
    (fun h => hn (List.mem_cons_of_mem _ h))
  rw [ParseFooter_eq, List.append_assoc, hf.head?]
  simp only [hm]

theorem ParseFooter_roundtrip_witness :
    ParseFooter ("Refs".toList ++ [' ', '#'] ++ "133".toList) =
        .ok { Token := "Refs".toList, Separator := [' ', '#'], Value := "133".toList } ∧
      ParseFooter ("Refs".toList ++ [':', ' '] ++ "#133".toList) =
        .ok { Token := "Refs".toList, Separator := [':', ' '], Value := "#133".toList } ∧
      ParseFooter ("BREAKING CHANGE".toList ++ [':', ' '] ++ "x y".toList) =
        .ok { Token := "BREAKING CHANGE".toList, Separator := [':', ' '], Value := "x y".toList } :=
  ⟨ParseFooter_roundtrip "Refs".toList [' ', '#'] "133".toList
      (Or.inr ⟨by decide, by decide⟩) (Or.inr rfl) (by decide) (by decide),
    ParseFooter_roundtrip "Refs".toList [':', ' '] "#133".toList
      (Or.inr ⟨by decide, by decide⟩) (Or.inl rfl) (by decide) (by decide),
    ParseFooter_roundtrip "BREAKING CHANGE".toList [':', ' '] "x y".toList
      (Or.inl rfl) (Or.inl rfl) (by decide) (by decide)⟩

theorem ParseHeader_ok_mem {line : Str} {h : Header} (hp : ParseHeader line = .ok h) :
    ∃ m, m ∈ headerPattern.prog.run ⟨[], line, []⟩ ∧ h = headerOfCaps m.caps := by
  rw [ParseHeader_eq] at hp
  cases hh : (headerPattern.prog.run ⟨[], line, []⟩).head? with
  | none => simp [hh] at hp
  | some m =>
    simp only [hh, Except.ok.injEq] at hp
    exact ⟨m, List.mem_of_mem_head? hh, hp.symm⟩

theorem ParseHeader_ok_or_error (line : Str) :
    (∃ h, ParseHeader line = .ok h) ∨ ParseHeader line = .error "does not match" := by
  rw [ParseHeader_eq]
  cases (headerPattern.prog.run ⟨[], line, []⟩).head? with
  | none => exact Or.inr rfl
  | some m => exact Or.inl ⟨_, rfl⟩

/-- C10. Header grammar soundness and rejection: when `ParseHeader line` succeeds with
header `h`, the line is `h.Type ++ S ++ B ++ ": " ++ h.Message` with `h.Type` a non-empty
string of word characters, `S` either empty (and then `h.Scope` is empty) or
`"(" ++ h.Scope ++ ")"` with `h.Scope` made of scope characters, `B` equal to `"!"` when
`h.Breaking` and empty otherwise, and `h.Message` free of newlines.  Hence a line that
does not contain `": "`, or that does not begin with a word character, is rejected
with the error `does not match`. -/
theorem ParseHeader_sound (line : Str) :
    (∀ h, ParseHeader line = .ok h →
      h.Type' ≠ [] ∧ (∀ c ∈ h.Type', isWord c = true) ∧
      (∀ c ∈ h.Scope, isScopeChar c = true) ∧ '\n' ∉ h.Message ∧
      ∃ S, ((S = [] ∧ h.Scope = []) ∨ S = ['('] ++ h.Scope ++ [')']) ∧
        line = h.Type' ++ S ++ (if h.Breaking then ['!'] else []) ++ [':', ' '] ++ h.Message) ∧
    (¬ [':', ' '] <:+: line → ParseHeader line = .error "does not match") ∧
    ((∀ c r, line = c :: r → isWord c = false) → ParseHeader line = .error "does not match") := by
  have key : ∀ h, ParseHeader line = .ok h →
      h.Type' ≠ [] ∧ (∀ c ∈ h.Type', isWord c = true) ∧
      (∀ c ∈ h.Scope, isScopeChar c = true) ∧ '\n' ∉ h.Message ∧
      ∃ S, ((S = [] ∧ h.Scope = []) ∨ S = ['('] ++ h.Scope ++ [')']) ∧
        line = h.Type' ++ S ++ (if h.Breaking then ['!'] else []) ++ [':', ' '] ++ h.Message := by
    intro h hp
    obtain ⟨m, hm, rfl⟩ := ParseHeader_ok_mem hp
    obtain ⟨type, scope, S, msg, breaking, h1, h2, h3, h4, h5, h6, h7⟩ := mem_headerPattern hm
    rw [h7]
    exact ⟨h1, h2, h3, h4, S, h5, h6⟩
  refine ⟨key, ?_, ?_⟩
  · intro hno
    rcases ParseHeader_ok_or_error line with ⟨h, hp⟩ | he
    · obtain ⟨-, -, -, -, S, -, hl⟩ := key h hp
      exact absurd ⟨h.Type' ++ S ++ (if h.Breaking then ['!'] else []), h.Message, hl.symm⟩ hno
    · exact he
  · intro hno
    rcases ParseHeader_ok_or_error line with ⟨h, hp⟩ | he
    · obtain ⟨hne, hw, -, -, S, -, hl⟩ := key h hp
      obtain ⟨c, w, hcw⟩ := List.exists_cons_of_ne_nil hne
      have h1 := hno c (w ++ S ++ (if h.Breaking then ['!'] else []) ++ [':', ' '] ++ h.Message)
        (by rw [hl, hcw]; simp)
      have h2 := hw c (by rw [hcw]; exact List.mem_cons_self _ _)
      rw [h1] at h2
      cases h2
    · exact he

theorem ParseHeader_sound_witness :
    (("fix".toList ≠ [] ∧ (∀ c ∈ "fix".toList, isWord c = true) ∧
      (∀ c ∈ "a b".toList, isScopeChar c = true) ∧ '\n' ∉ "m".toList ∧
      ∃ S, ((S = [] ∧ "a b".toList = []) ∨ S = ['('] ++ "a b".toList ++ [')']) ∧
        "fix(a b)!: m".toList =
          "fix".toList ++ S ++ (if true then ['!'] else []) ++ [':', ' '] ++ "m".toList)) ∧
    ParseHeader "feat hello:world".toList = .error "does not match" ∧
    ParseHeader "(api): hello".toList = .error "does not match" :=
  ⟨(ParseHeader_sound "fix(a b)!: m".toList).1 ⟨"fix".toList, "a b".toList, true, "m".toList⟩ rfl,
    (ParseHeader_sound "feat hello:world".toList).2.1 (by decide),
    (ParseHeader_sound "(api): hello".toList).2.2
      (by intro c r h; cases h; decide)⟩

/-! ## The loop of `ParseLines` -/

theorem loop_started (lineCount : Int) :
    ∀ (ls : List Str) (i : Nat) (s : LoopState), lineCount = i + ls.length →
      s.footerStarted = true → ls ≠ [] →
      (loop lineCount ls i s).bodyLines = s.bodyLines ∧
      (loop lineCount ls i s).footers = s.footers ++
        finalize s.footer (s.footerValueLines ++ ls.takeWhile (fun l => !isFooterLine l)) ::
          footersOf ls := by
  intro ls
  induction ls with
  | nil => intro i s _ _ h; exact absurd rfl h
  | cons l tl ih =>
    intro i s hn hs _
    by_cases htl : tl = []
    · subst htl
      have hi : ((i : Int) == lineCount - 1) = true := by
        simp only [List.length_singleton, Nat.cast_one] at hn
        simp [hn]
      cases hpf : ParseFooter l with
      | ok pf =>
        simp [loop, loopBody, hpf, hs, hi, addFooter, finalize, footersOf, isFooterLine]
      | error e =>
        simp [loop, loopBody, hpf, hs, hi, addFooter, finalize, footersOf, isFooterLine]
    · have hi : ((i : Int) == lineCount - 1) = false := by
        have : 0 < tl.length := List.length_pos.2 htl
        simp only [List.length_cons, Nat.cast_add, Nat.cast_one] at hn
        simp only [beq_eq_false_iff_ne, ne_eq]
        omega
      have hn' : lineCount = ((i + 1 : Nat) : Int) + tl.length := by
        simp only [List.length_cons, Nat.cast_add, Nat.cast_one] at hn ⊢
        omega
      cases hpf : ParseFooter l with
      | ok pf =>
        have := ih (i + 1) (loopBody lineCount i l s) hn'
          (by simp [loopBody, hpf, hs, hi]) htl
        simp only [loop]
        rw [this.1, this.2]
        simp [loopBody, hpf, hs, hi, addFooter, finalize, footersOf, isFooterLine]
      | error e =>
        have := ih (i + 1) (loopBody lineCount i l s) hn'
          (by simp [loopBody, hpf, hs, hi]) htl
        simp only [loop]
        rw [this.1, this.2]
        simp [loopBody, hpf, hs, hi, addFooter, finalize, footersOf, isFooterLine]

theorem loop_body (lineCount : Int) :
    ∀ (ls : List Str) (i : Nat) (s : LoopState), lineCount = i + ls.length →
      s.footerStarted = false →
      (loop lineCount ls i s).bodyLines =
        s.bodyLines ++ ls.takeWhile (fun l => !isFooterLine l) ∧
      (loop lineCount ls i s).footers = s.footers ++ footersOf ls := by
  intro ls
  induction ls with
  | nil => intro i s _ _; simp [loop, footersOf]
  | cons l tl ih =>
    intro i s hn hs
    have hn' : lineCount = ((i + 1 : Nat) : Int) + tl.length := by
      simp only [List.length_cons, Nat.cast_add, Nat.cast_one] at hn ⊢
      omega
    cases hpf : ParseFooter l with
    | error e =>
      have := ih (i + 1) (loopBody lineCount i l s) hn' (by simp [loopBody, hpf, hs])
      simp only [loop]
      rw [this.1, this.2]
      simp [loopBody, hpf, hs, footersOf, isFooterLine]
    | ok pf =>
      by_cases htl : tl = []
      · subst htl
        have hi : ((i : Int) == lineCount - 1) = true := by
          simp only [List.length_singleton, Nat.cast_one] at hn
          simp [hn]
        simp [loop, loopBody, hpf, hs, hi, addFooter, finalize, footersOf, isFooterLine]
      · have hi : ((i : Int) == lineCount - 1) = false := by
          have : 0 < tl.length := List.length_pos.2 htl
          simp only [List.length_cons, Nat.cast_add, Nat.cast_one] at hn
          simp only [beq_eq_false_iff_ne, ne_eq]
          omega
        have := loop_started lineCount tl (i + 1) (loopBody lineCount i l s) hn'
          (by simp [loopBody, hpf, hs, hi]) htl
        simp only [loop]
        rw [this.1, this.2]
        simp [loopBody, hpf, hs, hi, addFooter, finalize, footersOf, isFooterLine]

/-- On a message whose header matches and whose second line is empty, `ParseLines`
returns the header, the lines before the first footer line as body, and the
footers described by `footersOf`. -/
theorem ParseLines_ok (line0 : Str) (rest : List Str) (h : Header)
    (hh : ParseHeader line0 = .ok h) :
    ParseLines (line0 :: [] :: rest) = .ok {
      Header := h
      Body := removeTrailingNewline (joinLines (rest.takeWhile (fun l => !isFooterLine l)))
      Footers := footersOf rest } := by
  have := loop_body (rest.length : Int) rest 0 LoopState.init (by simp) rfl
  have e : ((rest.length : Int) + 1 + 1 - 2) = rest.length := by omega
  have hne : ¬ ((rest.length : Int) + 1 + 1 = 0) := by omega
  simp only [LoopState.init, List.nil_append] at this
  simp [ParseLines, goIndex, goSliceFrom, Result.bind, hh, e, hne, LoopState.init, this.1, this.2]

theorem ParseLines_header_error (line0 : Str) (rest : List Str) (e : String)
    (hh : ParseHeader line0 = .error e) : ParseLines (line0 :: rest) = .error e := by
  have hne : ¬ ((rest.length : Int) + 1 = 0) := by omega
  simp [ParseLines, goIndex, Result.bind, hh, hne]

theorem ParseLines_no_blank (line0 line1 : Str) (rest : List Str) (h : Header)
    (hh : ParseHeader line0 = .ok h) (h1 : line1 ≠ []) :
    ParseLines (line0 :: line1 :: rest) = .error "no empty line after header" := by
  have hne : ¬ ((rest.length : Int) + 1 + 1 = 0) := by omega
  have hgt : (1 : Int) < (rest.length : Int) + 1 + 1 := by omega
  simp [ParseLines, goIndex, Result.bind, hh, hne, hgt, h1]

theorem ParseLines_single (line0 : Str) (h : Header) (hh : ParseHeader line0 = .ok h) :
    ParseLines [line0] = .panic "runtime error: slice bounds out of range" := by
  simp [ParseLines, goIndex, goSliceFrom, Result.bind, hh]

theorem ParseLines_ok_inv (lines : List Str) (doc : CommitMessage)
    (hp : ParseLines lines = .ok doc) :
    ∃ line0 rest h, lines = line0 :: [] :: rest ∧ ParseHeader line0 = .ok h := by
  match lines with
  | [] => simp [ParseLines] at hp
  | line0 :: tl =>
    cases hh : ParseHeader line0 with
    | error e => rw [ParseLines_header_error line0 tl e hh] at hp; cases hp
    | ok h =>
      match tl with
      | [] => rw [ParseLines_single line0 h hh] at hp; cases hp
      | line1 :: rest =>
        by_cases h1 : line1 = []
        · subst h1
          exact ⟨line0, rest, h, rfl, hh⟩
        · rw [ParseLines_no_blank line0 line1 rest h hh h1] at hp
          cases hp

theorem footersOf_map (ls : List Str) :
    (footersOf ls).map (fun f => (f.Token, f.Separator)) =
      ls.filterMap (fun l =>
        match ParseFooter l with
        | .ok f => some (f.Token, f.Separator)
        | .error _ => none) := by
  induction ls with
  | nil => rfl
  | cons l tl ih =>
    cases hpf : ParseFooter l with
    | ok pf => simp [footersOf, hpf, List.filterMap_cons, finalize, ih]
    | error e => simp [footersOf, hpf, List.filterMap_cons, ih]

theorem footersOf_length (ls : List Str) :
    (footersOf ls).length = (ls.filter isFooterLine).length := by
  induction ls with
  | nil => rfl
  | cons l tl ih =>
    cases hpf : ParseFooter l with
    | ok pf => simp [footersOf, hpf, List.filter_cons, isFooterLine, ih]
    | error e => simp [footersOf, hpf, List.filter_cons, isFooterLine, ih]

theorem footersOf_append_footer (f : Str) (pf : Footer) (tl : List Str)
    (hf : ParseFooter f = .ok pf) :
    ∀ a : List Str, ∃ before, before.length = (a.filter isFooterLine).length ∧
      footersOf (a ++ f :: tl) =
        before ++ finalize pf (pf.Value :: tl.takeWhile (fun l => !isFooterLine l)) ::
          footersOf tl := by
  intro a
  induction a with
  | nil => exact ⟨[], rfl, by simp [footersOf, hf]⟩
  | cons l a ih =>
    obtain ⟨before, hlen, heq⟩ := ih
    cases hpf : ParseFooter l with
    | ok pl =>
      refine ⟨finalize pl (pl.Value :: (a ++ f :: tl).takeWhile (fun l => !isFooterLine l)) ::
        before, by simp [List.filter_cons, isFooterLine, hpf, hlen], ?_⟩
      rw [List.cons_append]
      simp only [footersOf, hpf]
      rw [heq, List.cons_append]
    | error e =>
      refine ⟨before, by simp [List.filter_cons, isFooterLine, hpf, hlen], ?_⟩
      rw [List.cons_append]
      simp only [footersOf, hpf]
      rw [heq]

theorem takeWhile_append_stop {α : Type} (p : α → Bool) (x : α) (tl : List α)
    (hx : p x = false) : ∀ a : List α, (a ++ x :: tl).takeWhile p = a.takeWhile p := by
  intro a
  induction a with
  | nil => simp [List.takeWhile, hx]
  | cons y a ih =>
    simp only [List.cons_append, List.takeWhile_cons, ih]

/-! ## Claims about `ParseLines` -/

/-- C2. A message of exactly one line, `feat: hello world`, whose line matches the header
grammar: the claim expects a document with that header, an empty body and no footers,
but the slice expression `lines[2:]` is out of range for a one-element slice and the
call panics. -/
theorem ParseLines_single_line_panics :
    ParseHeader "feat: hello world".toList =
        .ok ⟨"feat".toList, [], false, "hello world".toList⟩ ∧
      ParseLines ["feat: hello world".toList] =
        .panic "runtime error: slice bounds out of range" :=
  ⟨rfl, rfl⟩

/-- C3. Body extraction: on the lines `[h, ""] ++ pre ++ rest`, where `h` matches the header
grammar, no line of `pre` matches the footer grammar and `rest` is empty or begins with
a line that matches it, `ParseLines` succeeds and the body is
`strings.Join(pre, "\n")` without its trailing `\n` and `\r` characters. -/
theorem ParseLines_body (h : Str) (pre rest : List Str) (hd : Header)
    (hh : ParseHeader h = .ok hd)
    (hpre : ∀ l ∈ pre, isFooterLine l = false)
    (hrest : rest = [] ∨ ∃ r rs, rest = r :: rs ∧ isFooterLine r = true) :
    ∃ doc, ParseLines ([h, []] ++ pre ++ rest) = .ok doc ∧
      doc.Body = stringsTrimRight (stringsJoin pre ['\n']) ['\r', '\n'] := by
  refine ⟨_, ParseLines_ok h (pre ++ rest) hd hh, ?_⟩
  have e : (pre ++ rest).takeWhile (fun l => !isFooterLine l) = pre := by
    apply takeWhile_word_tail
    · intro l hl
      simp [hpre l hl]
    · intro c r hc
      rcases hrest with rfl | ⟨r', rs, rfl, hr⟩
      · cases hc
      · cases hc
        simp [hr]
  simp only [e]
  rfl

theorem ParseLines_body_witness :
    ∃ doc, ParseLines (["fix(typo): t".toList, []] ++
        [[], "see".toList, [], "  /bin/sh".toList, [], []] ++
        ["Reviewed-by: Z".toList, "more".toList]) = .ok doc ∧
      doc.Body = "\nsee\n\n  /bin/sh".toList :=
  ParseLines_body "fix(typo): t".toList [[], "see".toList, [], "  /bin/sh".toList, [], []]
    ["Reviewed-by: Z".toList, "more".toList] ⟨"fix".toList, "typo".toList, false, "t".toList⟩
    rfl (by decide) (Or.inr ⟨_, _, rfl, by decide⟩)

/-- C4. Footer count and order: when `ParseLines` succeeds, the tokens and separators of
its footers are, in source order, those that `ParseFooter` extracts from the lines at
index 2 and beyond that match the footer grammar; so there is exactly one footer per
such line, and when every line after the blank line is a footer line there are as
many footers as lines. -/
theorem ParseLines_footers (lines : List Str) (doc : CommitMessage)
    (hp : ParseLines lines = .ok doc) :
    doc.Footers.map (fun f => (f.Token, f.Separator)) =
        (lines.drop 2).filterMap (fun l =>
          match ParseFooter l with
          | .ok f => some (f.Token, f.Separator)
          | .error _ => none) ∧
      doc.Footers.length = ((lines.drop 2).filter isFooterLine).length ∧
      ((∀ l ∈ lines.drop 2, isFooterLine l = true) →
        doc.Footers.length = (lines.drop 2).length) := by
  obtain ⟨line0, rest, h, rfl, hh⟩ := ParseLines_ok_inv lines doc hp
  rw [ParseLines_ok line0 rest h hh] at hp
  cases hp
  refine ⟨footersOf_map rest, footersOf_length rest, ?_⟩
  intro hall
  simp only [List.drop_succ_cons, List.drop_zero] at hall ⊢
  rw [footersOf_length, List.filter_eq_self.2 hall]

theorem ParseLines_footers_witness :
    [⟨"Reviewed-by".toList, "Z".toList, ": ".toList⟩,
        (⟨"Refs".toList, "133".toList, " #".toList⟩ : Footer)].map
          (fun f => (f.Token, f.Separator)) =
        (["a: b".toList, [], "Reviewed-by: Z".toList, "Refs #133".toList].drop 2).filterMap
          (fun l =>
            match ParseFooter l with
            | .ok f => some (f.Token, f.Separator)
            | .error _ => none) ∧
      [⟨"Reviewed-by".toList, "Z".toList, ": ".toList⟩,
        (⟨"Refs".toList, "133".toList, " #".toList⟩ : Footer)].length =
        (["a: b".toList, [], "Reviewed-by: Z".toList, "Refs #133".toList].drop 2).length :=
  have h := ParseLines_footers ["a: b".toList, [], "Reviewed-by: Z".toList, "Refs #133".toList]
    ⟨⟨"a".toList, [], false, "b".toList⟩, [],
      [⟨"Reviewed-by".toList, "Z".toList, ": ".toList⟩,
        ⟨"Refs".toList, "133".toList, " #".toList⟩]⟩ rfl
  ⟨h.1, h.2.2 (by decide)⟩

/-- C5. Footer continuation: in a successfully parsed message, a line `f` at index 2 or
beyond that matches the footer grammar with value `v`, followed by the maximal run
`cont` of lines that do not match it, produces the footer at the position of `f` among
the footer lines, with the token and separator of `f` and the value
`strings.Join([v] ++ cont, "\n")` without trailing `\n` and `\r`; the lines of `cont`
are not in the body (which is made of lines before `f` only) and start no footer (the
footers are one per footer line before `f`, `f` itself, one per footer line after
`cont`). -/
theorem ParseLines_footer_continuation (line0 line1 f : Str) (before cont rest : List Str)
    (pf : Footer) (doc : CommitMessage)
    (hf : ParseFooter f = .ok pf)
    (hcont : ∀ l ∈ cont, isFooterLine l = false)
    (hrest : rest = [] ∨ ∃ r rs, rest = r :: rs ∧ isFooterLine r = true)
    (hp : ParseLines (line0 :: line1 :: (before ++ f :: (cont ++ rest))) = .ok doc) :
    doc.Footers[(before.filter isFooterLine).length]? =
        some { Token := pf.Token, Separator := pf.Separator,
               Value := stringsTrimRight (stringsJoin (pf.Value :: cont) ['\n']) ['\r', '\n'] } ∧
      doc.Body = stringsTrimRight
        (stringsJoin (before.takeWhile (fun l => !isFooterLine l)) ['\n']) ['\r', '\n'] ∧
      doc.Footers.length =
        (before.filter isFooterLine).length + 1 + (rest.filter isFooterLine).length := by
  obtain ⟨l0, tl, h, hl, hh⟩ := ParseLines_ok_inv _ doc hp
  simp only [List.cons.injEq] at hl
  obtain ⟨rfl, rfl, rfl⟩ := hl
  rw [ParseLines_ok line0 _ h hh] at hp
  cases hp
  have hfl : isFooterLine f = true := by simp [isFooterLine, hf]
  have e : (cont ++ rest).takeWhile (fun l => !isFooterLine l) = cont := by
    apply takeWhile_word_tail
    · intro l hl
      simp [hcont l hl]
    · intro c r hc
      rcases hrest with rfl | ⟨r', rs, rfl, hr⟩
      · cases hc
      · cases hc
        simp [hr]
  have hnone : (cont.filter isFooterLine) = [] := by
    rw [List.filter_eq_nil_iff]
    intro l hl
    simp [hcont l hl]
  obtain ⟨pre, hlen, heq⟩ := footersOf_append_footer f pf (cont ++ rest) hf before
  refine ⟨?_, ?_, ?_⟩
  · simp only [heq, e]
    rw [← hlen, List.getElem?_append_right (Nat.le_refl _)]
    simp [finalize, removeTrailingNewline, joinLines]
  · simp only [takeWhile_append_stop (fun l => !isFooterLine l) f (cont ++ rest) (by simp [hfl])]
    rfl
  · simp only [footersOf_length, List.filter_append, List.filter_cons, hfl, hnone, if_true,
      List.length_append, List.length_cons, List.nil_append]
    omega

theorem ParseLines_footer_continuation_witness :
    ([⟨"Reviewed-by".toList, "Z".toList, ": ".toList⟩,
        ⟨"Refs".toList, "133\n\nfollowing".toList, " #".toList⟩] : List Footer)[
          (["Reviewed-by: Z".toList].filter isFooterLine).length]? =
        some { Token := "Refs".toList, Separator := " #".toList,
               Value := stringsTrimRight
                (stringsJoin ("133".toList :: [[], "following".toList, []]) ['\n'])
                ['\r', '\n'] } ∧
      ([] : Str) = stringsTrimRight
        (stringsJoin (["Reviewed-by: Z".toList].takeWhile (fun l => !isFooterLine l)) ['\n'])
        ['\r', '\n'] ∧
      ([⟨"Reviewed-by".toList, "Z".toList, ": ".toList⟩,
        ⟨"Refs".toList, "133\n\nfollowing".toList, " #".toList⟩] : List Footer).length =
        (["Reviewed-by: Z".toList].filter isFooterLine).length + 1 +
          (([] : List Str).filter isFooterLine).length :=
  ParseLines_footer_continuation "fix(typo): correct minor typos in code".toList []
    "Refs #133".toList ["Reviewed-by: Z".toList] [[], "following".toList, []] []
    ⟨"Refs".toList, "133".toList, " #".toList⟩
    ⟨⟨"fix".toList, "typo".toList, false, "correct minor typos in code".toList⟩, [],
      [⟨"Reviewed-by".toList, "Z".toList, ": ".toList⟩,
        ⟨"Refs".toList, "133\n\nfollowing".toList, " #".toList⟩]⟩
    rfl (by decide) (Or.inl rfl) rfl

/-- C7, as stated, fails: on the two lines `bad` and `x` the second line is not empty,
yet the error is the `does not match` of the header, not `no empty line after header`. -/
theorem ParseLines_second_line_counterexample :
    2 ≤ ["bad".toList, "x".toList].length ∧
      ["bad".toList, "x".toList][1]? = some "x".toList ∧ "x".toList ≠ [] ∧
      ParseLines ["bad".toList, "x".toList] = .error "does not match" ∧
      ParseLines ["bad".toList, "x".toList] ≠ .error "no empty line after header" := by
  refine ⟨by decide, rfl, by decide, rfl, ?_⟩
  have e : ParseLines ["bad".toList, "x".toList] = .error "does not match" := rfl
  rw [e]
  decide

/-- C7, amended. Second line non-empty: on at least two lines of which the first matches
the header grammar and the second is not the empty string, `ParseLines` fails with the
error `no empty line after header`. -/
theorem ParseLines_second_line (line0 line1 : Str) (rest : List Str) (h : Header)
    (hh : ParseHeader line0 = .ok h) (h1 : line1 ≠ []) :
    ParseLines (line0 :: line1 :: rest) = .error "no empty line after header" := by
  have hne : ¬ ((rest.length : Int) + 1 + 1 = 0) := by omega
  have hgt : (1 : Int) < (rest.length : Int) + 1 + 1 := by omega
  simp [ParseLines, goIndex, Result.bind, hh, hne, hgt, h1]

theorem ParseLines_second_line_witness :
    ParseLines ("feat: hello".toList :: "world".toList :: [[], "Refs #1".toList]) =
      .error "no empty line after header" :=
  ParseLines_second_line "feat: hello".toList "world".toList [[], "Refs #1".toList]
    ⟨"feat".toList, [], false, "hello".toList⟩ rfl (by decide)

/-- C8. Malformed header aborts the parse: when the first line does not match the header
pattern, `ParseHeader` returns the error `does not match` and `ParseLines` fails with
that same error, whatever the remaining lines are. -/
theorem ParseLines_malformed_header (line0 : Str) (rest : List Str)
    (hno : headerPattern.FindStringSubmatch line0 = none) :
    ParseHeader line0 = .error "does not match" ∧
      ParseLines (line0 :: rest) = .error "does not match" := by
  have hh : ParseHeader line0 = .error "does not match" := by
    simp [ParseHeader, findGroups, hno]
  have hne : ¬ ((rest.length : Int) + 1 = 0) := by omega
  exact ⟨hh, by simp [ParseLines, goIndex, Result.bind, hh, hne]⟩

theorem ParseLines_malformed_header_witness :
    ParseHeader "feat hello".toList = .error "does not match" ∧
      ParseLines ("feat hello".toList :: [[], "body".toList, "Refs #1".toList]) =
        .error "does not match" :=
  ParseLines_malformed_header "feat hello".toList [[], "body".toList, "Refs #1".toList] rfl

/-- C9. Footer-grammar mismatch is never an error: on at least two lines, if line 0
matches the header grammar and line 1 is empty then `ParseLines` succeeds with the
header of line 0, whatever the later lines are; the call never panics; and it fails
exactly when line 0 does not match the header grammar or line 1 is not empty. -/
theorem ParseLines_fails_iff (line0 line1 : Str) (rest : List Str) :
    (∀ h, ParseHeader line0 = .ok h → line1 = [] →
      ∃ doc, ParseLines (line0 :: line1 :: rest) = .ok doc ∧ doc.Header = h) ∧
    (∀ e, ParseLines (line0 :: line1 :: rest) ≠ .panic e) ∧
    ((∃ e, ParseLines (line0 :: line1 :: rest) = .error e) ↔
      ((∀ h, ParseHeader line0 ≠ .ok h) ∨ line1 ≠ [])) := by
  cases hh : ParseHeader line0 with
  | error e =>
    have hne : ¬ ((rest.length : Int) + 1 + 1 = 0) := by omega
    have hp : ParseLines (line0 :: line1 :: rest) = .error e := by
      simp [ParseLines, goIndex, Result.bind, hh, hne]
    rw [hp]
    exact ⟨fun h hh' => (nomatch hh'), fun e' => (by simp), (by simp)⟩
  | ok h =>
    by_cases h1 : line1 = []
    · subst h1
      rw [ParseLines_ok line0 rest h hh]
      refine ⟨fun h' hh' _ => ⟨_, rfl, (Except.ok.inj hh').symm ▸ rfl⟩, fun e' => by simp, ?_⟩
      simp
    · rw [ParseLines_no_blank line0 line1 rest h hh h1]
      refine ⟨fun h' _ h1' => absurd h1' h1, fun e' => by simp, ?_⟩
      simp [h1]

theorem ParseLines_fails_iff_witness :
    (∃ doc, ParseLines ("a: b".toList :: [] :: ["x".toList, "y #".toList, ": ".toList]) = .ok doc ∧
        doc.Header = ⟨"a".toList, [], false, "b".toList⟩) ∧
      (∃ e, ParseLines ("a: b".toList :: "c".toList :: []) = .error e) ∧
      ((∀ h, ParseHeader "ab".toList ≠ .ok h) ∨ "c".toList ≠ []) :=
  ⟨(ParseLines_fails_iff "a: b".toList [] ["x".toList, "y #".toList, ": ".toList]).1
      ⟨"a".toList, [], false, "b".toList⟩ rfl rfl,
    (ParseLines_fails_iff "a: b".toList "c".toList []).2.2.2 (Or.inr (by decide)),
    (ParseLines_fails_iff "ab".toList "c".toList []).2.2.1 ⟨_, rfl⟩⟩

/-! ## Every match of the footer pattern has the shape of the grammar -/

theorem mem_footerPattern {line : Str} {st' : MState}
    (h : st' ∈ footerPattern.prog.run ⟨[], line, []⟩) :
    ∃ (token sep value : Str),
      (token = "BREAKING CHANGE".toList ∨ (token ≠ [] ∧ ∀ c ∈ token, isTokenChar c = true)) ∧
      (sep = [':', ' '] ∨ sep = [' ', '#']) ∧ value ≠ [] ∧ '\n' ∉ value ∧
      line = token ++ sep ++ value ∧
      footerOfCaps st'.caps = { Token := token, Separator := sep, Value := value } := by
  simp only [footerPattern] at h
  obtain ⟨m0, h0, hA⟩ := mem_run_seq h
  obtain ⟨-, rfl⟩ := mem_run_bol h0
  obtain ⟨m1, h1, hB⟩ := mem_run_seq hA
  obtain ⟨m2, h2, hC⟩ := mem_run_seq hB
  obtain ⟨m3, h3, hD⟩ := mem_run_seq hC
  clear h hA hB hC h0
  obtain ⟨hend, rfl⟩ := mem_run_eol hD
  -- the token
  obtain ⟨n1, hn1, e1p, e1r, e1c⟩ := mem_run_cap h1
  simp only [List.length_nil, List.drop_zero] at e1c
  have htok : (n1.pre = "BREAKING CHANGE".toList ∨
      (n1.pre ≠ [] ∧ ∀ c ∈ n1.pre, isTokenChar c = true)) ∧ line = n1.pre ++ n1.rest ∧
      n1.caps = [] := by
    rcases mem_run_alt hn1 with hl | hp
    · obtain ⟨e, e', e''⟩ := mem_run_lit hl
      simp only [List.nil_append] at e e'
      exact ⟨Or.inl e', by rw [e', ← e], e''⟩
    · obtain ⟨c, w, hc, hw, e, e', e''⟩ := mem_run_plus hp
      simp only [List.nil_append] at e e'
      refine ⟨Or.inr ⟨by simp [e'], ?_⟩, by rw [e', e]; simp, e''⟩
      intro x hx
      rw [e'] at hx
      rcases List.mem_cons.1 hx with rfl | hx
      · exact hc
      · exact hw x hx
  obtain ⟨htok, hline, hcaps1⟩ := htok
  rw [hcaps1] at e1c
  -- the separator
  obtain ⟨n2, hn2, e2p, e2r, e2c⟩ := mem_run_cap h2
  have hsep : ∃ sep, (sep = [':', ' '] ∨ sep = [' ', '#']) ∧ m1.rest = sep ++ n2.rest ∧
      n2.pre = m1.pre ++ sep ∧ (n2.caps.lookup 1 = m1.caps.lookup 1) := by
    rcases mem_run_alt hn2 with hl | hl
    · obtain ⟨k, hk, ekp, ekr, ekc⟩ := mem_run_cap hl
      obtain ⟨e, e', e''⟩ := mem_run_lit hk
      exact ⟨_, Or.inl rfl, by rw [ekr, ← e], by rw [ekp, e'], by rw [ekc, e'']; simp [List.lookup]⟩
    · obtain ⟨k, hk, ekp, ekr, ekc⟩ := mem_run_cap hl
      obtain ⟨e, e', e''⟩ := mem_run_lit hk
      exact ⟨_, Or.inr rfl, by rw [ekr, ← e], by rw [ekp, e'], by rw [ekc, e'']; simp [List.lookup]⟩
  obtain ⟨sep, hsep, hrest1, hpre2, hlook⟩ := hsep
  rw [hpre2, List.drop_left] at e2c
  -- the value
  obtain ⟨n3, hn3, e3p, e3r, e3c⟩ := mem_run_cap h3
  obtain ⟨v, vs, hv, hvs, e3, e3', e3''⟩ := mem_run_plus hn3
  rw [e3', List.drop_left, e3''] at e3c
  rw [e3r] at hend
  rw [hend, List.append_nil] at e3
  have hdot : ∀ c ∈ v :: vs, isDot c = true := by
    intro x hx
    rcases List.mem_cons.1 hx with rfl | hx
    · exact hv
    · exact hvs x hx
  refine ⟨n1.pre, sep, v :: vs, htok, hsep, by simp, not_mem_of_isDot hdot, ?_, ?_⟩
  · rw [hline, ← e1r, hrest1, ← e2r, e3]
    simp
  · rw [e3c, e2c]
    simp only [footerOfCaps, List.lookup, hlook, e1c]
    simp [List.lookup]

theorem ParseFooter_ok_mem {line : Str} {f : Footer} (hp : ParseFooter line = .ok f) :
    ∃ m, m ∈ footerPattern.prog.run ⟨[], line, []⟩ ∧ f = footerOfCaps m.caps := by
  rw [ParseFooter_eq] at hp
  cases hh : (footerPattern.prog.run ⟨[], line, []⟩).head? with
  | none => simp [hh] at hp
  | some m =>
    simp only [hh, Except.ok.injEq] at hp
    exact ⟨m, List.mem_of_mem_head? hh, hp.symm⟩

theorem ParseFooter_ok_or_error (line : Str) :
    (∃ f, ParseFooter line = .ok f) ∨ ParseFooter line = .error "does not match" := by
  rw [ParseFooter_eq]
  cases (footerPattern.prog.run ⟨[], line, []⟩).head? with
  | none => exact Or.inr rfl
  | some m => exact Or.inl ⟨_, rfl⟩

/-- The shape of the line and of the fields when `ParseFooter` succeeds. -/
theorem ParseFooter_ok_shape {line : Str} {f : Footer} (hp : ParseFooter line = .ok f) :
    line = f.Token ++ f.Separator ++ f.Value ∧
      (f.Separator = [':', ' '] ∨ f.Separator = [' ', '#']) ∧
      f.Value ≠ [] ∧ '\n' ∉ f.Value ∧
      (f.Token = "BREAKING CHANGE".toList ∨
        (f.Token ≠ [] ∧ ∀ c ∈ f.Token, isTokenChar c = true)) := by
  obtain ⟨m, hm, rfl⟩ := ParseFooter_ok_mem hp
  obtain ⟨token, sep, value, h1, h2, h3, h4, h5, h6⟩ := mem_footerPattern hm
  rw [h6]
  exact ⟨h5, h2, h3, h4, h1⟩

/-- The maximal run of token characters at the start of a line made of a valid token
followed by text that begins with a separator. -/
theorem takeWhile_token (token sep tail : Str)
    (ht : token = "BREAKING CHANGE".toList ∨ (token ≠ [] ∧ ∀ c ∈ token, isTokenChar c = true))
    (hs : sep = [':', ' '] ∨ sep = [' ', '#']) :
    (token = "BREAKING CHANGE".toList ∧
        (token ++ (sep ++ tail)).takeWhile isTokenChar = "BREAKING".toList) ∨
      ((∀ c ∈ token, isTokenChar c = true) ∧
        (token ++ (sep ++ tail)).takeWhile isTokenChar = token) := by
  rcases ht with rfl | ⟨-, htc⟩
  · left
    refine ⟨rfl, ?_⟩
    have e : "BREAKING CHANGE".toList ++ (sep ++ tail) =
        "BREAKING".toList ++ (' ' :: ("CHANGE".toList ++ (sep ++ tail))) := rfl
    rw [e]
    exact takeWhile_word_tail isTokenChar _ _ (by decide) (by intro c r h; cases h; decide)
  · right
    refine ⟨htc, takeWhile_word_tail isTokenChar _ _ htc ?_⟩
    intro c r h
    rcases hs with rfl | rfl <;> cases h <;> decide

/-- C11. Footer grammar soundness: when `ParseFooter line` succeeds with footer `f`, the
line is `f.Token ++ f.Separator ++ f.Value`, the separator is `": "` or `" #"`, the
value is not empty and has no newline, and the token is `BREAKING CHANGE` or a
non-empty string of word characters and hyphens.  Hence a line that contains neither
`": "` nor `" #"`, and a line made of a token and a separator followed by nothing, are
reported as `does not match`. -/
theorem ParseFooter_sound (line : Str) :
    (∀ f, ParseFooter line = .ok f →
      line = f.Token ++ f.Separator ++ f.Value ∧
      (f.Separator = [':', ' '] ∨ f.Separator = [' ', '#']) ∧
      f.Value ≠ [] ∧ '\n' ∉ f.Value ∧
      (f.Token = "BREAKING CHANGE".toList ∨
        (f.Token ≠ [] ∧ ∀ c ∈ f.Token, isTokenChar c = true))) ∧
    (¬ [':', ' '] <:+: line → ¬ [' ', '#'] <:+: line →
      ParseFooter line = .error "does not match") ∧
    (∀ token sep : Str,
      (token = "BREAKING CHANGE".toList ∨ (token ≠ [] ∧ ∀ c ∈ token, isTokenChar c = true)) →
      (sep = [':', ' '] ∨ sep = [' ', '#']) → line = token ++ sep →
      ParseFooter line = .error "does not match") := by
  refine ⟨fun f hp => ParseFooter_ok_shape hp, ?_, ?_⟩
  · intro h1 h2
    rcases ParseFooter_ok_or_error line with ⟨f, hp⟩ | he
    · obtain ⟨hl, hs, -⟩ := ParseFooter_ok_shape hp
      have hin : f.Separator <:+: line := ⟨f.Token, f.Value, hl.symm⟩
      rcases hs with hs | hs
      · rw [hs] at hin
        exact absurd hin h1
      · rw [hs] at hin
        exact absurd hin h2
    · exact he
  · intro token sep ht hs hline
    rcases ParseFooter_ok_or_error line with ⟨f, hp⟩ | he
    · exfalso
      obtain ⟨hl, hfs, hv, -, hft⟩ := ParseFooter_ok_shape hp
      have e : token ++ (sep ++ []) = f.Token ++ (f.Separator ++ f.Value) := by
        rw [List.append_nil, ← hline, hl, List.append_assoc]
      have e' := congrArg (List.takeWhile isTokenChar) e
      rcases takeWhile_token token sep [] ht hs with ⟨h1, h1'⟩ | ⟨h1, h1'⟩ <;>
        rcases takeWhile_token f.Token f.Separator f.Value hft hfs with ⟨h2, h2'⟩ | ⟨h2, h2'⟩
      · rw [h1, h2] at e
        have := List.append_cancel_left e
        have hlen' := congrArg List.length this
        rcases hs with rfl | rfl <;> rcases hfs with h | h <;> rw [h] at hlen' <;>
          simp only [List.length_append, List.length_cons, List.length_nil] at hlen' <;>
          exact hv (List.length_eq_zero.1 (by omega))
      · rw [h1', h2'] at e'
        rw [h1, ← e'] at e
        have e2 : "BREAKING CHANGE".toList ++ (sep ++ []) =
            "BREAKING".toList ++ (" CHANGE".toList ++ (sep ++ [])) := rfl
        rw [e2] at e
        have := List.append_cancel_left e
        rcases hs with rfl | rfl <;> rcases hfs with h | h <;> rw [h] at this <;> simp at this
      · rw [h1', h2'] at e'
        rw [h2, e'] at e
        have e2 : "BREAKING CHANGE".toList ++ (f.Separator ++ f.Value) =
            "BREAKING".toList ++ (" CHANGE".toList ++ (f.Separator ++ f.Value)) := rfl
        rw [e2] at e
        have := List.append_cancel_left e
        rcases hs with rfl | rfl <;> rcases hfs with h | h <;> rw [h] at this <;> simp at this
      · rw [h1', h2'] at e'
        rw [e'] at e
        have := List.append_cancel_left e
        have hlen' := congrArg List.length this
        rcases hs with rfl | rfl <;> rcases hfs with h | h <;> rw [h] at hlen' <;>
          simp only [List.length_append, List.length_cons, List.length_nil] at hlen' <;>
          exact hv (List.length_eq_zero.1 (by omega))
    · exact he

theorem ParseFooter_sound_witness :
    ("Refs #133".toList = "Refs".toList ++ " #".toList ++ "133".toList ∧
      (" #".toList = [':', ' '] ∨ " #".toList = [' ', '#']) ∧
      "133".toList ≠ [] ∧ '\n' ∉ "133".toList ∧
      ("Refs".toList = "BREAKING CHANGE".toList ∨
        ("Refs".toList ≠ [] ∧ ∀ c ∈ "Refs".toList, isTokenChar c = true))) ∧
    ParseFooter "see the issue:for details".toList = .error "does not match" ∧
    ParseFooter "Reviewed-by: ".toList = .error "does not match" :=
  ⟨(ParseFooter_sound "Refs #133".toList).1 ⟨"Refs".toList, "133".toList, " #".toList⟩ rfl,
    (ParseFooter_sound "see the issue:for details".toList).2.1 (by decide) (by decide),
    (ParseFooter_sound "Reviewed-by: ".toList).2.2 "Reviewed-by".toList [':', ' ']
      (Or.inr ⟨by decide, by decide⟩) (Or.inl rfl) rfl⟩

/-! ## The line splitter -/

theorem splitNewline_ne_nil (s : Str) : splitNewline s ≠ [] := by
  cases s with
  | nil => simp [splitNewline]
  | cons c r =>
    simp only [splitNewline]
    split
    · simp
    · split <;> simp

theorem splitNewline_cons_ne (c : Char) (r : Str) (hc : c ≠ '\n') :
    ∃ x xs, splitNewline r = x :: xs ∧ splitNewline (c :: r) = (c :: x) :: xs := by
  cases h : splitNewline r with
  | nil => exact absurd h (splitNewline_ne_nil r)
  | cons x xs => exact ⟨x, xs, rfl, by simp [splitNewline, hc, h]⟩

theorem trimSuffixCR_cons (c : Char) (x : Str) (h : c ≠ '\r') :
    trimSuffixCR (c :: x) = c :: trimSuffixCR x := by
  cases x with
  | nil => simp [trimSuffixCR, h]
  | cons y ys =>
    simp only [trimSuffixCR, List.getLast?_cons_cons, List.dropLast_cons₂]
    split <;> rfl

theorem trimSuffixCR_of_not_mem (x : Str) (h : '\r' ∉ x) : trimSuffixCR x = x := by
  unfold trimSuffixCR
  split
  · rename_i hl
    exact absurd (List.mem_of_getLast?_eq_some hl) h
  · rfl

theorem splitToLines_toCRLF (s : Str) (h : '\r' ∉ s) :
    splitToLines (toCRLF s) = splitToLines s := by
  unfold splitToLines
  induction s with
  | nil => rfl
  | cons c r ih =>
    have hr : '\r' ∉ r := fun hm => h (List.mem_cons_of_mem _ hm)
    have hc : c ≠ '\r' := fun e => h (e ▸ List.mem_cons_self _ _)
    have ih := ih hr
    by_cases hn : c = '\n'
    · subst hn
      have e1 : splitNewline (toCRLF ('\n' :: r)) = ['\r'] :: splitNewline (toCRLF r) := by
        simp [toCRLF, splitNewline]
      have e2 : splitNewline ('\n' :: r) = [] :: splitNewline r := by
        simp [splitNewline]
      rw [e1, e2, List.map_cons, List.map_cons, ih]
      rfl
    · obtain ⟨x, xs, hx, hx'⟩ := splitNewline_cons_ne c r hn
      obtain ⟨y, ys, hy, hy'⟩ := splitNewline_cons_ne c (toCRLF r) hn
      have e : toCRLF (c :: r) = c :: toCRLF r := by simp [toCRLF, hn]
      rw [e, hx', hy']
      rw [hx, hy] at ih
      simp only [List.map_cons, List.cons.injEq] at ih ⊢
      exact ⟨by rw [trimSuffixCR_cons c y hc, trimSuffixCR_cons c x hc, ih.1], ih.2⟩

theorem splitNewline_length (s : Str) : (splitNewline s).length = 1 + s.count '\n' := by
  induction s with
  | nil => rfl
  | cons c r ih =>
    by_cases hn : c = '\n'
    · subst hn
      simp [splitNewline, ih]
      omega
    · obtain ⟨x, xs, hx, hx'⟩ := splitNewline_cons_ne c r hn
      rw [hx', List.count_cons_of_ne (Ne.symm hn), ← ih, hx]
      rfl

theorem intercalate_cons_cons (sep : Str) (c : Char) (x : Str) (xs : List Str) :
    List.intercalate sep ((c :: x) :: xs) = c :: List.intercalate sep (x :: xs) := by
  cases xs <;> simp [List.intercalate, List.intersperse]

theorem intercalate_nil_cons (sep : Str) (x : Str) (xs : List Str) :
    List.intercalate sep ([] :: x :: xs) = sep ++ List.intercalate sep (x :: xs) := by
  simp [List.intercalate, List.intersperse]

theorem joinLines_splitNewline (s : Str) : joinLines (splitNewline s) = s := by
  unfold joinLines stringsJoin
  induction s with
  | nil => rfl
  | cons c r ih =>
    by_cases hn : c = '\n'
    · subst hn
      obtain ⟨x, xs, hx⟩ := List.exists_cons_of_ne_nil (splitNewline_ne_nil r)
      have e : splitNewline ('\n' :: r) = [] :: x :: xs := by simp [splitNewline, hx]
      rw [e, intercalate_nil_cons, ← hx, ih]
      rfl
    · obtain ⟨x, xs, hx, hx'⟩ := splitNewline_cons_ne c r hn
      rw [hx', intercalate_cons_cons, ← hx, ih]

theorem splitNewline_not_mem_cr (s : Str) (h : '\r' ∉ s) : ∀ l ∈ splitNewline s, '\r' ∉ l := by
  induction s with
  | nil => intro l hl; simp [splitNewline] at hl; simp [hl]
  | cons c r ih =>
    have hr : '\r' ∉ r := fun hm => h (List.mem_cons_of_mem _ hm)
    have hc : c ≠ '\r' := fun e => h (e ▸ List.mem_cons_self _ _)
    intro l hl
    by_cases hn : c = '\n'
    · subst hn
      simp only [splitNewline, if_true, List.mem_cons] at hl
      rcases hl with rfl | hl
      · simp
      · exact ih hr l hl
    · obtain ⟨x, xs, hx, hx'⟩ := splitNewline_cons_ne c r hn
      rw [hx'] at hl
      rcases List.mem_cons.1 hl with rfl | hl
      · intro hm
        rcases List.mem_cons.1 hm with e | hm
        · exact hc e.symm
        · exact ih hr x (by rw [hx]; exact List.mem_cons_self _ _) hm
      · exact ih hr l (by rw [hx]; exact List.mem_cons_of_mem _ hl)

theorem splitToLines_of_not_mem_cr (s : Str) (h : '\r' ∉ s) : splitToLines s = splitNewline s := by
  unfold splitToLines
  conv_rhs => rw [← List.map_id (splitNewline s)]
  apply List.map_congr_left
  intro l hl
  exact trimSuffixCR_of_not_mem l (splitNewline_not_mem_cr s h l hl)

theorem splitNewline_append_newline (t : Str) :
    splitNewline (t ++ ['\n']) = splitNewline t ++ [[]] := by
  induction t with
  | nil => rfl
  | cons c r ih =>
    by_cases hn : c = '\n'
    · subst hn
      simp [splitNewline, ih]
    · obtain ⟨x, xs, hx, hx'⟩ := splitNewline_cons_ne c r hn
      obtain ⟨y, ys, hy, hy'⟩ := splitNewline_cons_ne c (r ++ ['\n']) hn
      rw [List.cons_append, hy', hx']
      rw [ih, hx] at hy
      simp only [List.cons_append, List.cons.injEq] at hy
      rw [← hy.1, ← hy.2]
      rfl

theorem splitNewline_not_mem_lf (s : Str) : ∀ l ∈ splitNewline s, '\n' ∉ l := by
  induction s with
  | nil => intro l hl; simp [splitNewline] at hl; simp [hl]
  | cons c r ih =>
    intro l hl
    by_cases hn : c = '\n'
    · subst hn
      simp only [splitNewline, if_true, List.mem_cons] at hl
      rcases hl with rfl | hl
      · simp
      · exact ih l hl
    · obtain ⟨x, xs, hx, hx'⟩ := splitNewline_cons_ne c r hn
      rw [hx'] at hl
      rcases List.mem_cons.1 hl with rfl | hl
      · intro hm
        rcases List.mem_cons.1 hm with e | hm
        · exact hn e.symm
        · exact ih x (by rw [hx]; exact List.mem_cons_self _ _) hm
      · exact ih l (by rw [hx]; exact List.mem_cons_of_mem _ hl)

theorem splitNewline_pieces (s : Str) :
    ∃ x xs, splitNewline s = x :: xs ∧ x <+: s ∧ ∀ l ∈ xs, l <:+: s := by
  induction s with
  | nil => exact ⟨[], [], rfl, List.prefix_refl _, by simp⟩
  | cons c r ih =>
    obtain ⟨x, xs, hx, hpre, hin⟩ := ih
    by_cases hn : c = '\n'
    · subst hn
      refine ⟨[], x :: xs, by simp [splitNewline, hx], List.nil_prefix, ?_⟩
      intro l hl
      rcases List.mem_cons.1 hl with rfl | hl
      · exact (hpre.isInfix).trans (List.suffix_cons _ _).isInfix
      · exact (hin l hl).trans (List.suffix_cons _ _).isInfix
    · refine ⟨c :: x, xs, by simp [splitNewline, hn, hx], ?_, ?_⟩
      · obtain ⟨t, ht⟩ := hpre
        exact ⟨t, by simp [ht]⟩
      · intro l hl
        exact (hin l hl).trans (List.suffix_cons _ _).isInfix

theorem mem_splitNewline_isInfix (s l : Str) (hl : l ∈ splitNewline s) : l <:+: s := by
  obtain ⟨x, xs, hx, hpre, hin⟩ := splitNewline_pieces s
  rw [hx] at hl
  rcases List.mem_cons.1 hl with rfl | hl
  · exact hpre.isInfix
  · exact hin l hl

theorem trimSuffixCR_isPrefix (x : Str) : trimSuffixCR x <+: x := by
  unfold trimSuffixCR
  split
  · exact List.dropLast_prefix x
  · exact List.prefix_refl x

theorem trimSuffixCR_last (x : Str) (h : (trimSuffixCR x).getLast? = some '\r') :
    ['\r', '\r'] <:+ x := by
  unfold trimSuffixCR at h
  split at h
  · rename_i hx
    obtain ⟨ys, hys⟩ := List.getLast?_eq_some_iff.1 hx
    obtain ⟨zs, hzs⟩ := List.getLast?_eq_some_iff.1 h
    rw [hys, List.dropLast_concat] at hzs
    exact ⟨zs, by rw [hys, hzs]; simp⟩
  · rename_i hx
    exact absurd h hx

/-! ## Claims about the line splitter -/

/-- C13. Line endings accepted uniformly: for a text `s` without `\r`, `splitToLines` of `s`
with every `"\n"` replaced by `"\r\n"` is `splitToLines s`, hence `ParseLines` gives the
same result for the two forms of the message. -/
theorem splitToLines_crlf (s : Str) (h : '\r' ∉ s) :
    splitToLines (toCRLF s) = splitToLines s ∧
      ParseLines (splitToLines (toCRLF s)) = ParseLines (splitToLines s) := by
  have e := splitToLines_toCRLF s h
  exact ⟨e, by rw [e]⟩

theorem splitToLines_crlf_witness :
    splitToLines (toCRLF "a: b\n\nx\nRefs #1\n".toList) = splitToLines "a: b\n\nx\nRefs #1\n".toList ∧
      ParseLines (splitToLines (toCRLF "a: b\n\nx\nRefs #1\n".toList)) =
        ParseLines (splitToLines "a: b\n\nx\nRefs #1\n".toList) :=
  splitToLines_crlf "a: b\n\nx\nRefs #1\n".toList (by decide)

/-- C14. No line is dropped by the splitter: `splitToLines s` has one element more than
`s` has newlines; for `s` without `\r`, joining the elements with `"\n"` gives back `s`;
and when `s` ends with a newline the last element is the empty string. -/
theorem splitToLines_complete (s : Str) :
    (splitToLines s).length = 1 + s.count '\n' ∧
      ('\r' ∉ s → stringsJoin (splitToLines s) ['\n'] = s) ∧
      (∀ t, s = t ++ ['\n'] → (splitToLines s).getLast? = some []) := by
  refine ⟨?_, ?_, ?_⟩
  · simp [splitToLines, splitNewline_length]
  · intro h
    rw [splitToLines_of_not_mem_cr s h]
    exact joinLines_splitNewline s
  · rintro t rfl
    simp [splitToLines, splitNewline_append_newline, trimSuffixCR]

theorem splitToLines_complete_witness :
    stringsJoin (splitToLines "a: b\n\nx\n".toList) ['\n'] = "a: b\n\nx\n".toList ∧
      (splitToLines "a: b\n\nx\n".toList).getLast? = some [] :=
  ⟨(splitToLines_complete "a: b\n\nx\n".toList).2.1 (by decide),
    (splitToLines_complete "a: b\n\nx\n".toList).2.2 "a: b\n\nx".toList rfl⟩

/-- C17, as stated, fails: the text `a\r\r\nb` is split into `a\r` and `b`, and the first
element ends with `\r`, because only one trailing `\r` is removed from a line. -/
theorem splitToLines_cr_counterexample :
    splitToLines "a\r\r\nb".toList = ["a\r".toList, "b".toList] ∧
      "a\r".toList ∈ splitToLines "a\r\r\nb".toList ∧
      "a\r".toList.getLast? = some '\r' := by
  decide

/-- C17, amended. Line-ending artifacts are removed by the splitter: no element of
`splitToLines s` contains `\n`, and when `s` has no two consecutive `\r` no element
ends with `\r` (one trailing `\r` is removed from each line). -/
theorem splitToLines_artifacts (s : Str) :
    (∀ l ∈ splitToLines s, '\n' ∉ l) ∧
      (¬ ['\r', '\r'] <:+: s → ∀ l ∈ splitToLines s, l.getLast? ≠ some '\r') := by
  constructor
  · intro l hl hm
    simp only [splitToLines, List.mem_map] at hl
    obtain ⟨x, hx, rfl⟩ := hl
    exact splitNewline_not_mem_lf s x hx ((trimSuffixCR_isPrefix x).subset hm)
  · intro hno l hl hlast
    simp only [splitToLines, List.mem_map] at hl
    obtain ⟨x, hx, rfl⟩ := hl
    exact hno ((trimSuffixCR_last x hlast).isInfix.trans (mem_splitNewline_isInfix s x hx))

theorem splitToLines_artifacts_witness :
    "x\ry".toList ∈ splitToLines "a: b\r\n\r\nx\ry\r\n".toList ∧
      '\n' ∉ "x\ry".toList ∧ "x\ry".toList.getLast? ≠ some '\r' :=
  ⟨by decide,
    (splitToLines_artifacts "a: b\r\n\r\nx\ry\r\n".toList).1 "x\ry".toList (by decide),
    (splitToLines_artifacts "a: b\r\n\r\nx\ry\r\n".toList).2 (by decide) "x\ry".toList
      (by decide)⟩

/-! ## Errors and outcomes of `ParseLines` -/

theorem ParseHeader_error_eq {line : Str} {e : String} (h : ParseHeader line = .error e) :
    e = "does not match" := by
  rcases ParseHeader_ok_or_error line with ⟨hd, hp⟩ | he
  · rw [hp] at h
    cases h
  · rw [he] at h
    cases h
    rfl

theorem ParseLines_empty_message_iff (lines : List Str) :
    ParseLines lines = .error "empty message" ↔ lines = [] := by
  constructor
  · intro hp
    match lines with
    | [] => rfl
    | line0 :: tl =>
      exfalso
      cases hh : ParseHeader line0 with
      | error e =>
        rw [ParseLines_header_error line0 tl e hh, ParseHeader_error_eq hh] at hp
        revert hp
        decide
      | ok h =>
        match tl with
        | [] => rw [ParseLines_single line0 h hh] at hp; cases hp
        | line1 :: rest =>
          by_cases h1 : line1 = []
          · subst h1
            rw [ParseLines_ok line0 rest h hh] at hp
            cases hp
          · rw [ParseLines_no_blank line0 line1 rest h hh h1] at hp
            revert hp
            decide
  · rintro rfl
    rfl

theorem removeTrailingNewline_last (s : Str) :
    (removeTrailingNewline s).getLast? ≠ some '\n' ∧
      (removeTrailingNewline s).getLast? ≠ some '\r' := by
  have key : ∀ c, (removeTrailingNewline s).getLast? = some c →
      (['\r', '\n'].contains c) = false := by
    intro c hc
    have hne : List.rdropWhile (fun c => ['\r', '\n'].contains c) s ≠ [] := by
      intro h
      simp only [removeTrailingNewline, stringsTrimRight] at hc
      rw [h] at hc
      cases hc
    have := List.rdropWhile_last_not (fun c => ['\r', '\n'].contains c) s hne
    have e : (removeTrailingNewline s).getLast? = some
        ((List.rdropWhile (fun c => ['\r', '\n'].contains c) s).getLast hne) :=
      List.getLast?_eq_getLast _ hne
    rw [e, Option.some.injEq] at hc
    rw [← hc]
    simpa using this
  constructor
  · intro h
    have := key _ h
    revert this
    decide
  · intro h
    have := key _ h
    revert this
    decide

theorem mem_footersOf {ls : List Str} {f : Footer} (h : f ∈ footersOf ls) :
    ∃ l ∈ ls, ∃ pf vl, ParseFooter l = .ok pf ∧ f = finalize pf (pf.Value :: vl) := by
  induction ls with
  | nil => simp [footersOf] at h
  | cons l tl ih =>
    cases hpf : ParseFooter l with
    | ok pf =>
      simp only [footersOf, hpf, List.mem_cons] at h
      rcases h with rfl | h
      · exact ⟨l, List.mem_cons_self _ _, pf, _, hpf, rfl⟩
      · obtain ⟨l', hl', r⟩ := ih h
        exact ⟨l', List.mem_cons_of_mem _ hl', r⟩
    | error e =>
      simp only [footersOf, hpf] at h
      obtain ⟨l', hl', r⟩ := ih h
      exact ⟨l', List.mem_cons_of_mem _ hl', r⟩

theorem prefix_intercalate_cons (sep v : Str) (vl : List Str) :
    v <+: List.intercalate sep (v :: vl) := by
  cases vl with
  | nil => simp [List.intercalate, List.intersperse]
  | cons y ys => exact ⟨sep ++ List.intercalate sep (y :: ys), by
      simp [List.intercalate, List.intersperse]⟩

/-! ## Further claims about `ParseLines` and `ParseHeader` -/

/-- C12. `ParseLines` fails with the error `empty message` exactly when it is given zero
lines. -/
theorem ParseLines_empty_message (lines : List Str) :
    ParseLines lines = .error "empty message" ↔ lines.length = 0 := by
  rw [ParseLines_empty_message_iff, List.length_eq_zero]

/-- C15. Trailing newline characters are stripped from the output: when `ParseLines`
succeeds, neither the body nor the value of any footer ends with `\n` or `\r`. -/
theorem ParseLines_no_trailing_newline (lines : List Str) (doc : CommitMessage)
    (hp : ParseLines lines = .ok doc) :
    (doc.Body.getLast? ≠ some '\n' ∧ doc.Body.getLast? ≠ some '\r') ∧
      ∀ f ∈ doc.Footers, f.Value.getLast? ≠ some '\n' ∧ f.Value.getLast? ≠ some '\r' := by
  obtain ⟨line0, rest, h, rfl, hh⟩ := ParseLines_ok_inv lines doc hp
  rw [ParseLines_ok line0 rest h hh] at hp
  cases hp
  refine ⟨removeTrailingNewline_last _, ?_⟩
  intro f hf
  obtain ⟨l, -, pf, vl, -, rfl⟩ := mem_footersOf hf
  exact removeTrailingNewline_last _

theorem ParseLines_no_trailing_newline_witness :
    ("x".toList.getLast? ≠ some '\n' ∧ "x".toList.getLast? ≠ some '\r') ∧
      "1\n\ny".toList.getLast? ≠ some '\n' ∧ "1\n\ny".toList.getLast? ≠ some '\r' :=
  have h := ParseLines_no_trailing_newline
    ["a: b".toList, [], "x".toList, "\r".toList, [], "Refs #1".toList, [], "y\r".toList, []]
    ⟨⟨"a".toList, [], false, "b".toList⟩, "x".toList,
      [⟨"Refs".toList, "1\n\ny".toList, " #".toList⟩]⟩ rfl
  ⟨h.1, h.2 ⟨"Refs".toList, "1\n\ny".toList, " #".toList⟩ (List.mem_singleton.2 rfl)⟩

/-- C16. On the one-line message `fix: typo`, whose line matches the header grammar, the
slice expression `lines[2:]` is out of range: the call panics, and so returns neither
a document nor one of the three errors. -/
theorem ParseLines_not_total :
    goSliceFrom ["fix: typo".toList] 2 = .panic "runtime error: slice bounds out of range" ∧
      ParseLines ["fix: typo".toList] = .panic "runtime error: slice bounds out of range" ∧
      (∀ doc, ParseLines ["fix: typo".toList] ≠ .ok doc) ∧
      (∀ e, ParseLines ["fix: typo".toList] ≠ .error e) := by
  have e : ParseLines ["fix: typo".toList] = .panic "runtime error: slice bounds out of range" :=
    rfl
  refine ⟨rfl, e, ?_, ?_⟩
  · intro doc h
    rw [e] at h
    cases h
  · intro e' h
    rw [e] at h
    cases h

/-- C18, as stated, fails: on the lines `a: b`, the empty line and `Refs: \r`, the footer
line matches with value `\r`, which finalization strips, so the footer has an empty
value. -/
theorem ParseLines_footer_value_counterexample :
    ParseLines ["a: b".toList, [], "Refs: \r".toList] =
        .ok ⟨⟨"a".toList, [], false, "b".toList⟩, [], [⟨"Refs".toList, [], ": ".toList⟩]⟩ ∧
      (⟨"Refs".toList, [], ": ".toList⟩ : Footer).Value = [] :=
  ⟨rfl, rfl⟩

/-- C18, amended. When `ParseLines` succeeds and the value matched on each footer line
has a character other than `\r`, every footer of the document has a non-empty
value. -/
theorem ParseLines_footer_value (lines : List Str) (doc : CommitMessage)
    (hp : ParseLines lines = .ok doc)
    (hv : ∀ l ∈ lines.drop 2, ∀ pf, ParseFooter l = .ok pf → ∃ c ∈ pf.Value, c ≠ '\r') :
    ∀ f ∈ doc.Footers, f.Value ≠ [] := by
  obtain ⟨line0, rest, h, rfl, hh⟩ := ParseLines_ok_inv lines doc hp
  rw [ParseLines_ok line0 rest h hh] at hp
  cases hp
  intro f hf hnil
  obtain ⟨l, hl, pf, vl, hpf, rfl⟩ := mem_footersOf hf
  obtain ⟨c, hc, hcr⟩ := hv l (by simpa using hl) pf hpf
  obtain ⟨-, -, -, hnl, -⟩ := ParseFooter_ok_shape hpf
  have hmem : c ∈ List.intercalate ['\n'] (pf.Value :: vl) :=
    (prefix_intercalate_cons ['\n'] pf.Value vl).subset hc
  simp only [finalize, removeTrailingNewline, stringsTrimRight, joinLines, stringsJoin] at hnil
  have := List.rdropWhile_eq_nil_iff.1 hnil c hmem
  simp only [List.contains_cons, List.contains_nil, Bool.or_false, Bool.or_eq_true,
    beq_iff_eq] at this
  rcases this with rfl | rfl
  · exact hcr rfl
  · exact hnl hc

theorem ParseLines_footer_value_witness :
    (⟨"Refs".toList, "1\r\n\ny".toList, " #".toList⟩ : Footer).Value ≠ [] :=
  ParseLines_footer_value ["a: b".toList, [], "x".toList, "Refs #1\r".toList, [], "y\r".toList]
    ⟨⟨"a".toList, [], false, "b".toList⟩, "x".toList,
      [⟨"Refs".toList, "1\r\n\ny".toList, " #".toList⟩]⟩ rfl
    (by
      intro l hl pf hpf
      simp only [List.drop_succ_cons, List.drop_zero, List.mem_cons, List.mem_singleton,
        List.not_mem_nil, or_false] at hl
      rcases hl with rfl | rfl | rfl | rfl
      · cases hpf
      · cases hpf
        exact ⟨'1', by decide, by decide⟩
      · cases hpf
      · cases hpf)
    ⟨"Refs".toList, "1\r\n\ny".toList, " #".toList⟩ (List.mem_singleton.2 rfl)

/-- C19. The error `empty message` is unreachable from text: `splitToLines s` is never
empty, so `ParseLines (splitToLines s)` never fails with `empty message`; for the
empty text the result is the error `does not match` of the header. -/
theorem splitToLines_never_empty (s : Str) :
    splitToLines s ≠ [] ∧ ParseLines (splitToLines s) ≠ .error "empty message" ∧
      ParseLines (splitToLines []) = .error "does not match" := by
  have hne : splitToLines s ≠ [] := by
    simp [splitToLines, splitNewline_ne_nil]
  exact ⟨hne, fun h => hne ((ParseLines_empty_message_iff _).1 h), rfl⟩

/-- C20. An empty parenthesised scope cannot be told from an absent scope: for a type of
one or more word characters, a breaking flag and a message without newline, the lines
`type()!: message` and `type!: message` (the `!` present iff breaking) are different
lines that both parse to the header with that type, flag and message and the scope
`""`. -/
theorem ParseHeader_empty_scope (type message : Str) (breaking : Bool)
    (ht : type ≠ []) (hw : ∀ c ∈ type, isWord c = true) (hm : '\n' ∉ message) :
    ParseHeader (type ++ ['(', ')'] ++ (if breaking then ['!'] else []) ++ [':', ' '] ++ message) =
        .ok ⟨type, [], breaking, message⟩ ∧
      ParseHeader (type ++ (if breaking then ['!'] else []) ++ [':', ' '] ++ message) =
        .ok ⟨type, [], breaking, message⟩ ∧
      type ++ ['(', ')'] ++ (if breaking then ['!'] else []) ++ [':', ' '] ++ message ≠
        type ++ (if breaking then ['!'] else []) ++ [':', ' '] ++ message := by
  obtain ⟨c, w, rfl⟩ := List.exists_cons_of_ne_nil ht
  have hc := hw c (List.mem_cons_self _ _)
  have hw' : ∀ x ∈ w, isWord x = true := fun x hx => hw x (List.mem_cons_of_mem _ hx)
  obtain ⟨m₁, hf₁, hh₁⟩ := headerMatch_scope c w [] message breaking hc hw' (by simp) hm
  obtain ⟨m₂, hf₂, hh₂⟩ := headerMatch_noscope c w message breaking hc hw' hm
  refine ⟨?_, ?_, ?_⟩
  · rw [ParseHeader_eq]
    have e : c :: w ++ ['(', ')'] ++ (if breaking then ['!'] else []) ++ [':', ' '] ++ message =
        c :: (w ++ '(' :: ([] ++ ')' ::
        ((if breaking then ['!'] else []) ++ ':' :: ' ' :: message))) := by simp
    rw [e, hf₁.head?]
    simp only [hh₁]
  · rw [ParseHeader_eq]
    have e : c :: w ++ (if breaking then ['!'] else []) ++ [':', ' '] ++ message =
        c :: (w ++ ((if breaking then ['!'] else []) ++ ':' :: ' ' :: message)) := by simp
    rw [e, hf₂.head?]
    simp only [hh₂]
  · intro h
    have := congrArg List.length h
    simp only [List.length_append, List.length_cons, List.length_nil] at this
    omega

theorem ParseHeader_empty_scope_witness :
    ParseHeader ("feat".toList ++ ['(', ')'] ++ (if true then ['!'] else []) ++ [':', ' '] ++
        "drop A".toList) = .ok ⟨"feat".toList, [], true, "drop A".toList⟩ ∧
      ParseHeader ("feat".toList ++ (if true then ['!'] else []) ++ [':', ' '] ++
        "drop A".toList) = .ok ⟨"feat".toList, [], true, "drop A".toList⟩ ∧
      "feat".toList ++ ['(', ')'] ++ (if true then ['!'] else []) ++ [':', ' '] ++
        "drop A".toList ≠
        "feat".toList ++ (if true then ['!'] else []) ++ [':', ' '] ++ "drop A".toList :=
  ParseHeader_empty_scope "feat".toList "drop A".toList true (by decide) (by decide) (by decide)

end ConventionalCommits
